import Mathlib

/-!
# Verification of the claudia streaming decoder and tool-calling loop

Shallow embedding of the streaming response decoder (tag-aware stream
splitter, tool-call delta accumulator, streaming session driver) and the
tool-calling orchestration loop of the claudia desktop chat client,
together with proofs and refutations of the specification claims.

Text is modelled as `List Char`.  The inline markers are the literal
spellings `<think>`/`<thinking>` and `</think>`/`</thinking>`, matched
case-insensitively (the source matches them with the regexes
`/<think(?:ing)?>/i` and `/<\/think(?:ing)?>/i`; for these ASCII-only
patterns JavaScript's case-insensitive canonicalization coincides with
ASCII lower-casing, which is what `Char.toLower` implements).
-/

namespace Claudia

/-- Case-insensitive prefix test: `pat` (given in lowercase) is a prefix of
`s` up to ASCII case.  Mirrors matching a literal regex at the start of a
string with the `i` flag. -/
def ciPrefix (pat s : List Char) : Bool :=
  (s.take pat.length).map Char.toLower == pat

/-- The start-marker matcher at the head of a string: the regex
`/<think(?:ing)?>/i` anchored at position 0.  Greedy, so `<thinking>`
(10 chars) is preferred over `<think>` (7 chars); returns the length of
the match. -/
def matchOpen (s : List Char) : Option Nat :=
  if ciPrefix "<thinking>".toList s then some 10
  else if ciPrefix "<think>".toList s then some 7
  else none

/-- The end-marker matcher at the head of a string: the regex
`/<\/think(?:ing)?>/i` anchored at position 0. -/
def matchClose (s : List Char) : Option Nat :=
  if ciPrefix "</thinking>".toList s then some 11
  else if ciPrefix "</think>".toList s then some 8
  else none

/-- First (leftmost) match of an anchored matcher `m` in `s`: returns the
match index and length, like `String.prototype.match` with a non-global
regex returning `index` and the matched text's length. -/
def findTag (m : List Char → Option Nat) : List Char → Option (Nat × Nat)
  | [] => none
  | c :: cs =>
    match m (c :: cs) with
    | some l => some (0, l)
    | none =>
      match findTag m cs with
      | some (i, l) => some (i + 1, l)
      | none => none

/-- Leftmost occurrence of the start marker. -/
def findOpen (s : List Char) : Option (Nat × Nat) := findTag matchOpen s

/-- Leftmost occurrence of the end marker. -/
def findClose (s : List Char) : Option (Nat × Nat) := findTag matchClose s

theorem ciPrefix_length {pat s : List Char} (h : ciPrefix pat s = true) :
    pat.length ≤ s.length := by
  unfold ciPrefix at h
  have h' := congrArg List.length (eq_of_beq h)
  simp [List.length_take] at h'
  omega

theorem ciPrefix_append {pat s t : List Char} (h : ciPrefix pat s = true) :
    ciPrefix pat (s ++ t) = true := by
  have hl := ciPrefix_length h
  unfold ciPrefix at h ⊢
  rwa [List.take_append_eq_append_take, Nat.sub_eq_zero_of_le hl,
    List.take_zero, List.append_nil]

theorem ciPrefix_of_append {pat s t : List Char}
    (h : ciPrefix pat (s ++ t) = true) (hl : pat.length ≤ s.length) :
    ciPrefix pat s = true := by
  unfold ciPrefix at h ⊢
  rwa [List.take_append_eq_append_take, Nat.sub_eq_zero_of_le hl,
    List.take_zero, List.append_nil] at h

theorem ciPrefix_getElem {pat s : List Char} (h : ciPrefix pat s = true)
    {k : Nat} (hk : k < pat.length) :
    ∃ hks : k < s.length, Char.toLower s[k] = pat[k] := by
  have hl := ciPrefix_length h
  have hks : k < s.length := lt_of_lt_of_le hk hl
  refine ⟨hks, ?_⟩
  unfold ciPrefix at h
  have h' := eq_of_beq h
  have := congrArg (fun l => l[k]?) h'
  simp [List.getElem?_map, List.getElem?_take, hk, List.getElem?_eq_getElem hks,
    List.getElem?_eq_getElem (lt_of_lt_of_le hk hl)] at this
  exact this

theorem matchOpen_length {s : List Char} {l : Nat} (h : matchOpen s = some l) :
    (l = 7 ∨ l = 10) ∧ l ≤ s.length := by
  unfold matchOpen at h
  split at h
  · rename_i hp
    cases h
    exact ⟨Or.inr rfl, ciPrefix_length hp⟩
  · split at h
    · rename_i hp
      cases h
      exact ⟨Or.inl rfl, ciPrefix_length hp⟩
    · cases h

theorem matchClose_length {s : List Char} {l : Nat} (h : matchClose s = some l) :
    (l = 8 ∨ l = 11) ∧ l ≤ s.length := by
  unfold matchClose at h
  split at h
  · rename_i hp
    cases h
    exact ⟨Or.inr rfl, ciPrefix_length hp⟩
  · split at h
    · rename_i hp
      cases h
      exact ⟨Or.inl rfl, ciPrefix_length hp⟩
    · cases h

theorem findTag_spec {m : List Char → Option Nat} {s : List Char}
    {i l : Nat} (h : findTag m s = some (i, l)) :
    m (s.drop i) = some l ∧ ∀ j, j < i → m (s.drop j) = none := by
  induction s generalizing i l with
  | nil => simp [findTag] at h
  | cons c cs ih =>
    unfold findTag at h
    cases hm : m (c :: cs) with
    | some l' =>
      rw [hm] at h
      cases h
      exact ⟨hm, fun j hj => absurd hj (Nat.not_lt_zero j)⟩
    | none =>
      rw [hm] at h
      cases hrec : findTag m cs with
      | none => rw [hrec] at h; cases h
      | some p =>
        obtain ⟨i', l'⟩ := p
        rw [hrec] at h
        cases h
        obtain ⟨h1, h2⟩ := ih hrec
        refine ⟨h1, fun j hj => ?_⟩
        cases j with
        | zero => exact hm
        | succ j' => exact h2 j' (Nat.lt_of_succ_lt_succ hj)

theorem findTag_none {m : List Char → Option Nat} (hnil : m [] = none)
    {s : List Char} (h : findTag m s = none) : ∀ j, m (s.drop j) = none := by
  induction s with
  | nil =>
    intro j
    simpa using hnil
  | cons c cs ih =>
    intro j
    unfold findTag at h
    cases hm : m (c :: cs) with
    | some l => rw [hm] at h; cases h
    | none =>
      rw [hm] at h
      cases hrec : findTag m cs with
      | some p => obtain ⟨a, b⟩ := p; rw [hrec] at h; cases h
      | none =>
        cases j with
        | zero => exact hm
        | succ j' => exact ih hrec j'

theorem findTag_of_spec {m : List Char → Option Nat} (hnil : m [] = none)
    {s : List Char}
    {i l : Nat} (h1 : m (s.drop i) = some l)
    (h2 : ∀ j, j < i → m (s.drop j) = none) :
    findTag m s = some (i, l) := by
  induction s generalizing i with
  | nil =>
    rw [List.drop_nil] at h1
    rw [hnil] at h1
    cases h1
  | cons c cs ih =>
    unfold findTag
    cases i with
    | zero =>
      simp at h1
      rw [h1]
    | succ i' =>
      have h0 : m (c :: cs) = none := h2 0 (Nat.succ_pos i')
      rw [h0]
      have h1' : m (cs.drop i') = some l := by simpa using h1
      have h2' : ∀ j, j < i' → m (cs.drop j) = none := by
        intro j hj
        have := h2 (j + 1) (Nat.succ_lt_succ hj)
        simpa using this
      rw [ih h1' h2']

theorem matchOpen_nil : matchOpen [] = none := by decide

theorem matchClose_nil : matchClose [] = none := by decide

theorem findTag_nil {m : List Char → Option Nat} : findTag m [] = none := rfl

/-! ## The splitter core: `processBufferWithKnownFormat`

One run of the `while (pendingBuffer.length > 0)` loop of
`processBufferWithKnownFormat` in the streaming service.  The loop either
consumes a marker and continues, or emits a guarded prefix of the buffer
and breaks.  We implement it with explicit fuel (each marker consumption
removes at least 7 characters, so `B.length` steps of fuel always
suffice), which keeps the function kernel-computable. -/

/-- Result of one call to `processBufferWithKnownFormat`: the updated
`isInsideThinkBlock` flag and pending buffer, and the content and
reasoning text dispatched by this call. -/
structure PBResult where
  inThink : Bool
  buffer : List Char
  content : List Char
  reasoning : List Char
  deriving DecidableEq, Repr

/-- The loop body of `processBufferWithKnownFormat`, parameterized by the
recursive call (`rec` is invoked when the JS loop takes another
iteration after consuming a marker). -/
def pbStep (rec : Bool → List Char → PBResult) (ib : Bool) (B : List Char) :
    PBResult :=
  if ib then
    match findClose B with
    | some (i, l) =>
      let r := rec false (B.drop (i + l))
      ⟨r.inThink, r.buffer, r.content, B.take i ++ r.reasoning⟩
    | none =>
      if 15 < B.length then
        ⟨true, B.drop (B.length - 15), [], B.take (B.length - 15)⟩
      else ⟨true, B, [], []⟩
  else
    match findOpen B, findClose B with
    | some (io, lo), some (ic, lc) =>
      if io < ic then
        let r := rec true (B.drop (io + lo))
        ⟨r.inThink, r.buffer, B.take io ++ r.content, r.reasoning⟩
      else
        let r := rec false (B.drop (ic + lc))
        ⟨r.inThink, r.buffer, r.content, B.take ic ++ r.reasoning⟩
    | some (io, lo), none =>
      let r := rec true (B.drop (io + lo))
      ⟨r.inThink, r.buffer, B.take io ++ r.content, r.reasoning⟩
    | none, some (ic, lc) =>
      let r := rec false (B.drop (ic + lc))
      ⟨r.inThink, r.buffer, r.content, B.take ic ++ r.reasoning⟩
    | none, none =>
      if 15 < B.length ∧ ¬((B.drop (B.length - 15)).contains '<') then
        ⟨false, B.drop (B.length - 15), B.take (B.length - 15), []⟩
      else ⟨false, B, [], []⟩

/-- Fuelled iteration of the loop body. -/
def pbF : Nat → Bool → List Char → PBResult
  | 0, ib, B => ⟨ib, B, [], []⟩
  | fuel + 1, ib, B => pbStep (pbF fuel) ib B

/-- `processBufferWithKnownFormat`: run the loop to completion.
`B.length` fuel always suffices because every loop iteration that does
not break consumes a marker of length at least 7. -/
def processBuffer (ib : Bool) (B : List Char) : PBResult :=
  pbF B.length ib B

theorem findClose_bound {B : List Char} {i l : Nat}
    (h : findClose B = some (i, l)) : 8 ≤ l ∧ i + l ≤ B.length := by
  obtain ⟨h1, -⟩ := findTag_spec h
  obtain ⟨hl, hle⟩ := matchClose_length h1
  rw [List.length_drop] at hle
  constructor
  · rcases hl with rfl | rfl <;> omega
  · omega

theorem findOpen_bound {B : List Char} {i l : Nat}
    (h : findOpen B = some (i, l)) : 7 ≤ l ∧ i + l ≤ B.length := by
  obtain ⟨h1, -⟩ := findTag_spec h
  obtain ⟨hl, hle⟩ := matchOpen_length h1
  rw [List.length_drop] at hle
  constructor
  · rcases hl with rfl | rfl <;> omega
  · omega

theorem pbF_congr {f1 f2 : Nat} {ib : Bool} {B : List Char}
    (h1 : B.length ≤ f1) (h2 : B.length ≤ f2) :
    pbF f1 ib B = pbF f2 ib B := by
  induction f1 generalizing f2 ib B with
  | zero =>
    have hB : B = [] := List.length_eq_zero.mp (Nat.le_zero.mp h1)
    subst hB
    cases f2 with
    | zero => rfl
    | succ g2 =>
      cases ib <;> rfl
  | succ g1 ih =>
    cases f2 with
    | zero =>
      have hB : B = [] := List.length_eq_zero.mp (Nat.le_zero.mp h2)
      subst hB
      cases ib <;> rfl
    | succ g2 =>
      show pbStep (pbF g1) ib B = pbStep (pbF g2) ib B
      unfold pbStep
      cases ib with
      | true =>
        simp only [if_true]
        cases hc : findClose B with
        | none => rfl
        | some p =>
          obtain ⟨i, l⟩ := p
          obtain ⟨hl8, hil⟩ := findClose_bound hc
          have hlen : (B.drop (i + l)).length ≤ g1 := by
            rw [List.length_drop]; omega
          have hlen2 : (B.drop (i + l)).length ≤ g2 := by
            rw [List.length_drop]; omega
          simp only [ih hlen hlen2]
      | false =>
        simp only [if_false, Bool.false_eq_true]
        cases ho : findOpen B with
        | none =>
          cases hc : findClose B with
          | none => rfl
          | some p =>
            obtain ⟨i, l⟩ := p
            obtain ⟨hl8, hil⟩ := findClose_bound hc
            have hlen : (B.drop (i + l)).length ≤ g1 := by
              rw [List.length_drop]; omega
            have hlen2 : (B.drop (i + l)).length ≤ g2 := by
              rw [List.length_drop]; omega
            simp only [ih hlen hlen2]
        | some p =>
          obtain ⟨io, lo⟩ := p
          obtain ⟨hl7, hiol⟩ := findOpen_bound ho
          have hleno : (B.drop (io + lo)).length ≤ g1 := by
            rw [List.length_drop]; omega
          have hleno2 : (B.drop (io + lo)).length ≤ g2 := by
            rw [List.length_drop]; omega
          cases hc : findClose B with
          | none => simp only [ih hleno hleno2]
          | some q =>
            obtain ⟨ic, lc⟩ := q
            obtain ⟨hl8, hicl⟩ := findClose_bound hc
            have hlenc : (B.drop (ic + lc)).length ≤ g1 := by
              rw [List.length_drop]; omega
            have hlenc2 : (B.drop (ic + lc)).length ≤ g2 := by
              rw [List.length_drop]; omega
            by_cases hio : io < ic
            · simp only [hio, if_true, ih hleno hleno2]
            · simp only [hio, if_false, hc, ih hlenc hlenc2]

/-- One-step unfolding of `processBuffer`. -/
theorem processBuffer_eq (ib : Bool) (B : List Char) :
    processBuffer ib B = pbStep processBuffer ib B := by
  unfold processBuffer
  cases hB : B.length with
  | zero =>
    have hB' : B = [] := List.length_eq_zero.mp hB
    subst hB'
    cases ib <;> rfl
  | succ n =>
    show pbStep (pbF n) ib B = pbStep (fun ib' B' => pbF B'.length ib' B') ib B
    unfold pbStep
    cases ib with
    | true =>
      simp only [if_true]
      cases hc : findClose B with
      | none => rfl
      | some p =>
        obtain ⟨i, l⟩ := p
        obtain ⟨hl8, hil⟩ := findClose_bound hc
        have hlen : (B.drop (i + l)).length ≤ n := by
          rw [List.length_drop]; omega
        simp only [pbF_congr hlen (le_refl _)]
    | false =>
      simp only [if_false, Bool.false_eq_true]
      cases ho : findOpen B with
      | none =>
        cases hc : findClose B with
        | none => rfl
        | some p =>
          obtain ⟨i, l⟩ := p
          obtain ⟨hl8, hil⟩ := findClose_bound hc
          have hlen : (B.drop (i + l)).length ≤ n := by
            rw [List.length_drop]; omega
          simp only [pbF_congr hlen (le_refl _)]
      | some p =>
        obtain ⟨io, lo⟩ := p
        obtain ⟨hl7, hiol⟩ := findOpen_bound ho
        have hleno : (B.drop (io + lo)).length ≤ n := by
          rw [List.length_drop]; omega
        cases hc : findClose B with
        | none => simp only [pbF_congr hleno (le_refl _)]
        | some q =>
          obtain ⟨ic, lc⟩ := q
          obtain ⟨hl8, hicl⟩ := findClose_bound hc
          have hlenc : (B.drop (ic + lc)).length ≤ n := by
            rw [List.length_drop]; omega
          by_cases hio : io < ic
          · simp only [hio, if_true, pbF_congr hleno (le_refl _)]
          · simp only [hio, if_false, hc, pbF_congr hlenc (le_refl _)]

/-! ## Data model: tool calls and usage -/

/-- A `ToolCall` as accumulated by the streaming service (`message.types`):
provider id, type (always `"function"` in practice), function name and
JSON-argument string.  String fields are modelled as `List Char`. -/
structure ToolCall where
  id : List Char
  type : List Char
  fnName : List Char
  fnArgs : List Char
  deriving DecidableEq, Repr

/-- Token-usage payload; the streaming service forwards it opaquely to
`onUsage`, so we model it as an abstract tag. -/
abbrev MessageUsage := Nat

/-- One callback invocation observable on the `StreamCallbacks` surface of
`streamChatCompletion`. -/
inductive CB where
  | chunk : List Char → CB
  | reasoning : List Char → CB
  | toolCalls : List ToolCall → CB
  | usage : MessageUsage → CB
  | complete : CB
  | error : List Char → CB
  deriving DecidableEq, Repr

/-! ## The tag-aware stream splitter -/

/-- Splitter state inside one `streamChatCompletion` call:
`formatDetected`, `isInsideThinkBlock` and `pendingBuffer`. -/
structure SplitterSt where
  detected : Bool
  inThink : Bool
  buffer : List Char
  deriving DecidableEq, Repr

/-- Initial splitter state. -/
def initSplitter : SplitterSt := ⟨false, false, []⟩

/-- The `onChunk`/`onReasoning` dispatch at the end of
`processBufferWithKnownFormat`: one `onChunk` call if any content was
processed, then one `onReasoning` call if any reasoning was processed. -/
def pbEvents (r : PBResult) : List CB :=
  (if r.content ≠ [] then [CB.chunk r.content] else []) ++
  (if r.reasoning ≠ [] then [CB.reasoning r.reasoning] else [])

/-- Processing of one non-empty `delta.content` string `s` by the
streaming service (the `if (content)` block): append to the pending
buffer; in the format-detection phase look for an opening marker first,
then a closing marker (implicit think), then the 3000-character
threshold; once the format is known, run `processBufferWithKnownFormat`.
Returns the new state and the emitted callback events.  An empty `s` is
skipped by the `if (content)` truthiness guard. -/
def feedContent (st : SplitterSt) (s : List Char) : SplitterSt × List CB :=
  if s = [] then (st, [])
  else
    let B := st.buffer ++ s
    if st.detected then
      let r := processBuffer st.inThink B
      (⟨true, r.inThink, r.buffer⟩, pbEvents r)
    else
      match findOpen B with
      | some (io, lo) =>
        let pre := B.take io
        let r := processBuffer true (B.drop (io + lo))
        (⟨true, r.inThink, r.buffer⟩,
          (if pre ≠ [] then [CB.chunk pre] else []) ++ pbEvents r)
      | none =>
        match findClose B with
        | some (ic, lc) =>
          let pre := B.take ic
          let r := processBuffer false (B.drop (ic + lc))
          (⟨true, r.inThink, r.buffer⟩,
            (if pre ≠ [] then [CB.reasoning pre] else []) ++ pbEvents r)
        | none =>
          if 3000 ≤ B.length then
            let r := processBuffer st.inThink B
            (⟨true, r.inThink, r.buffer⟩, pbEvents r)
          else
            (⟨false, st.inThink, B⟩, [])

/-- The flush part of `flushBufferAndComplete`: the events emitted for
the remaining pending buffer, before the final `onComplete`. -/
def flushBody (st : SplitterSt) : List CB :=
  (if st.detected = false ∧ st.buffer ≠ [] then
    match findOpen st.buffer with
    | some (io, lo) =>
      let pre := st.buffer.take io
      let after := st.buffer.drop (io + lo)
      (if pre ≠ [] then [CB.chunk pre] else []) ++
      (match findClose after with
       | some (jc, jl) =>
         (if after.take jc ≠ [] then [CB.reasoning (after.take jc)] else []) ++
         (if after.drop (jc + jl) ≠ [] then [CB.chunk (after.drop (jc + jl))] else [])
       | none =>
         if after ≠ [] then [CB.reasoning after] else [])
    | none =>
      match findClose st.buffer with
      | some (ic, lc) =>
        (if st.buffer.take ic ≠ [] then [CB.reasoning (st.buffer.take ic)] else []) ++
        (if st.buffer.drop (ic + lc) ≠ [] then [CB.chunk (st.buffer.drop (ic + lc))] else [])
      | none => [CB.chunk st.buffer]
  else if st.buffer ≠ [] then
    if st.inThink then [CB.reasoning st.buffer] else [CB.chunk st.buffer]
  else [])

/-- The callback events emitted by `flushBufferAndComplete` (including
the final `onComplete`). -/
def flushEvents (st : SplitterSt) : List CB :=
  flushBody st ++ [CB.complete]

/-- State left behind by `flushBufferAndComplete`: the pending buffer is
cleared, the other flags are untouched. -/
def flushSt (st : SplitterSt) : SplitterSt := ⟨st.detected, st.inThink, []⟩

/-- Feed a sequence of content fragments. -/
def feedAll (st : SplitterSt) : List (List Char) → SplitterSt × List CB
  | [] => (st, [])
  | s :: rest =>
    let p := feedContent st s
    let q := feedAll p.1 rest
    (q.1, p.2 ++ q.2)

/-- Concatenated content output of a callback trace. -/
def ctot : List CB → List Char
  | [] => []
  | CB.chunk s :: rest => s ++ ctot rest
  | _ :: rest => ctot rest

/-- Concatenated reasoning output of a callback trace. -/
def rtot : List CB → List Char
  | [] => []
  | CB.reasoning s :: rest => s ++ rtot rest
  | _ :: rest => rtot rest

/-- Feed the fragments of `cs` as successive `delta.content` chunks, then
signal end of stream: the resulting total (content, reasoning) outputs. -/
def runSplit (cs : List (List Char)) : List Char × List Char :=
  let p := feedAll initSplitter cs
  let evs := p.2 ++ flushEvents p.1
  (ctot evs, rtot evs)

example :
    runSplit ["a</think>b<think>c".toList] =
      ("a</think>b".toList, "c".toList) := by decide

example :
    runSplit ["a</think>".toList, "b<think>c".toList] =
      ("b".toList, "ac".toList) := by decide

example :
    runSplit ["hello ".toList, "world".toList] = ("hello world".toList, []) := by
  decide

example :
    runSplit ["x<thi".toList, "nk>r</t".toList, "hink>y".toList] =
      ("xy".toList, "r".toList) := by decide

/-! ## Counterexamples to C1 and C2

The format-detection phase checks for an opening marker *anywhere* in the
buffer before it checks for a closing marker, so a buffer in which a
closing marker precedes an opening marker is classified differently
depending on whether both markers are visible at detection time.  This
makes the splitter's output depend on the chunk boundaries. -/

/-- Claim C1 is false: the input `a</think>b<think>c` fed as a single
chunk yields (content `a</think>b`, reasoning `c`), but fed as the two
chunks `a</think>` / `b<think>c` yields (content `b`, reasoning `ac`).
Both the chunking-independence conjunct and the
`content ++ reasoning = input minus markers` conjunct fail (the latter
would require `abc`). -/
theorem C1_counterexample :
    (["a</think>".toList, "b<think>c".toList].flatten =
      "a</think>b<think>c".toList) ∧
    runSplit ["a</think>b<think>c".toList] ≠
      runSplit ["a</think>".toList, "b<think>c".toList] ∧
    (runSplit ["a</think>".toList, "b<think>c".toList]).1 ++
        (runSplit ["a</think>".toList, "b<think>c".toList]).2 ≠
      "abc".toList ∧
    (runSplit ["a</think>b<think>c".toList]).1 ++
        (runSplit ["a</think>b<think>c".toList]).2 ≠
      "abc".toList := by decide

/-- Claim C2 is false: for the input `r</think>x<think>y` — which begins
"already thinking" (its first marker is the end marker, with no start
marker before it) — the claim predicts reasoning `r` and content
`x<think>y`; the code instead finds the *opening* marker first during
format detection (existence is checked before position), producing
content `r</think>x` and reasoning `y` even for the single-chunk
feeding. -/
theorem C2_counterexample :
    runSplit ["r</think>x<think>y".toList] ≠
      ("x<think>y".toList, "r".toList) ∧
    (runSplit ["r</think>x<think>y".toList]).2 ≠ "r".toList := by decide

/-! ## Marker-free text -/

/-- `X` contains no start or end marker at any position. -/
def tagFree (X : List Char) : Prop :=
  ∀ j : Nat, matchOpen (X.drop j) = none ∧ matchClose (X.drop j) = none

theorem matchOpen_extend {s t : List Char} (h : matchOpen (s ++ t) = none) :
    matchOpen s = none := by
  unfold matchOpen at h ⊢
  split at h
  · cases h
  · split at h
    · cases h
    · rename_i h1 h2
      rw [if_neg, if_neg]
      · intro hc; exact h2 (ciPrefix_append hc)
      · intro hc; exact h1 (ciPrefix_append hc)

theorem matchClose_extend {s t : List Char} (h : matchClose (s ++ t) = none) :
    matchClose s = none := by
  unfold matchClose at h ⊢
  split at h
  · cases h
  · split at h
    · cases h
    · rename_i h1 h2
      rw [if_neg, if_neg]
      · intro hc; exact h2 (ciPrefix_append hc)
      · intro hc; exact h1 (ciPrefix_append hc)

theorem tagFree_of_find {X : List Char} (ho : findOpen X = none)
    (hc : findClose X = none) : tagFree X := fun j =>
  ⟨findTag_none matchOpen_nil ho j, findTag_none matchClose_nil hc j⟩

theorem tagFree.findOpen {X : List Char} (h : tagFree X) :
    findOpen X = none := by
  cases hf : Claudia.findOpen X with
  | none => rfl
  | some p =>
    obtain ⟨i, l⟩ := p
    obtain ⟨h1, -⟩ := findTag_spec hf
    rw [(h i).1] at h1
    cases h1

theorem tagFree.findClose {X : List Char} (h : tagFree X) :
    findClose X = none := by
  cases hf : Claudia.findClose X with
  | none => rfl
  | some p =>
    obtain ⟨i, l⟩ := p
    obtain ⟨h1, -⟩ := findTag_spec hf
    rw [(h i).2] at h1
    cases h1

theorem tagFree_suffix {Y Z : List Char} (h : tagFree (Y ++ Z)) :
    tagFree Z := by
  intro j
  have h2 := h (Y.length + j)
  rwa [List.drop_append_eq_append_drop, List.drop_of_length_le (by omega),
    show Y.length + j - Y.length = j by omega, List.nil_append] at h2

theorem tagFree_prefix {Y Z : List Char} (h : tagFree (Y ++ Z)) :
    tagFree Y := by
  intro j
  have hj := h j
  rw [List.drop_append_eq_append_drop] at hj
  constructor
  · cases hm : matchOpen (Y.drop j) with
    | none => rfl
    | some l =>
      exfalso
      rcases hj.1 with h1
      by_cases hjy : j ≤ Y.length
      · rw [Nat.sub_eq_zero_of_le hjy, List.drop_zero] at h1
        rw [matchOpen_extend h1] at hm
        cases hm
      · rw [List.drop_of_length_le (by omega)] at hm
        rw [matchOpen_nil] at hm
        cases hm
  · cases hm : matchClose (Y.drop j) with
    | none => rfl
    | some l =>
      exfalso
      rcases hj.2 with h1
      by_cases hjy : j ≤ Y.length
      · rw [Nat.sub_eq_zero_of_le hjy, List.drop_zero] at h1
        rw [matchClose_extend h1] at hm
        cases hm
      · rw [List.drop_of_length_le (by omega)] at hm
        rw [matchClose_nil] at hm
        cases hm

theorem ctot_append (a b : List CB) : ctot (a ++ b) = ctot a ++ ctot b := by
  induction a with
  | nil => rfl
  | cons e rest ih =>
    cases e <;> simp [ctot, ih]

theorem rtot_append (a b : List CB) : rtot (a ++ b) = rtot a ++ rtot b := by
  induction a with
  | nil => rfl
  | cons e rest ih =>
    cases e <;> simp [rtot, ih]

theorem ctot_pbEvents (r : PBResult) : ctot (pbEvents r) = r.content := by
  unfold pbEvents
  by_cases hc : r.content = [] <;> by_cases hr : r.reasoning = [] <;>
    simp [hc, hr, ctot, ctot_append]

theorem rtot_pbEvents (r : PBResult) : rtot (pbEvents r) = r.reasoning := by
  unfold pbEvents
  by_cases hc : r.content = [] <;> by_cases hr : r.reasoning = [] <;>
    simp [hc, hr, rtot, rtot_append]

/-- On a marker-free buffer, `processBufferWithKnownFormat` in content
mode emits a guarded prefix of the buffer as content and nothing as
reasoning. -/
theorem processBuffer_tagFree {B : List Char} (hB : tagFree B) :
    processBuffer false B =
      if 15 < B.length ∧ ¬((B.drop (B.length - 15)).contains '<') then
        ⟨false, B.drop (B.length - 15), B.take (B.length - 15), []⟩
      else ⟨false, B, [], []⟩ := by
  rw [processBuffer_eq]
  unfold pbStep
  simp only [Bool.false_eq_true, if_false, hB.findOpen, hB.findClose]

/-- One feed step on marker-free data: never enters think mode, emits a
prefix of the appended buffer as content, no reasoning; while the format
is undetected nothing is emitted. -/
theorem feedContent_tagFree (st : SplitterSt) (s : List Char)
    (hth : st.inThink = false) (hB : tagFree (st.buffer ++ s)) :
    (feedContent st s).1.inThink = false ∧
    ctot (feedContent st s).2 ++ (feedContent st s).1.buffer =
      st.buffer ++ s ∧
    rtot (feedContent st s).2 = [] ∧
    ((feedContent st s).1.detected = false →
      st.detected = false ∧ ctot (feedContent st s).2 = []) := by
  unfold feedContent
  by_cases hs : s = []
  · subst hs
    rw [if_pos rfl]
    exact ⟨hth, by simp [ctot], rfl, fun h => ⟨h, rfl⟩⟩
  · rw [if_neg hs]
    have hpb := processBuffer_tagFree hB
    cases hd : st.detected with
    | true =>
      simp only [if_true, hth, hpb]
      by_cases hg : 15 < (st.buffer ++ s).length ∧
          ¬(((st.buffer ++ s).drop ((st.buffer ++ s).length - 15)).contains '<')
      · rw [if_pos hg]
        refine ⟨rfl, ?_, ?_, by simp⟩
        · rw [ctot_pbEvents]
          exact List.take_append_drop _ _
        · rw [rtot_pbEvents]
      · rw [if_neg hg]
        refine ⟨rfl, ?_, ?_, by simp⟩
        · rw [ctot_pbEvents]; rfl
        · rw [rtot_pbEvents]
    | false =>
      simp only [Bool.false_eq_true, if_false, hB.findOpen, hB.findClose]
      by_cases hlen : 3000 ≤ (st.buffer ++ s).length
      · rw [if_pos hlen]
        simp only [hth, hpb]
        by_cases hg : 15 < (st.buffer ++ s).length ∧
            ¬(((st.buffer ++ s).drop ((st.buffer ++ s).length - 15)).contains '<')
        · rw [if_pos hg]
          refine ⟨rfl, ?_, ?_, by simp⟩
          · rw [ctot_pbEvents]
            exact List.take_append_drop _ _
          · rw [rtot_pbEvents]
        · rw [if_neg hg]
          refine ⟨rfl, ?_, ?_, by simp⟩
          · rw [ctot_pbEvents]; rfl
          · rw [rtot_pbEvents]
      · rw [if_neg hlen]
        exact ⟨hth, rfl, rfl, fun _ => ⟨by trivial, rfl⟩⟩

/-- Feeding any number of marker-free fragments: all output is content,
namely the consumed text minus what is still buffered. -/
theorem feedAll_tagFree (cs : List (List Char)) (st : SplitterSt)
    (hth : st.inThink = false) (hB : tagFree (st.buffer ++ cs.flatten)) :
    (feedAll st cs).1.inThink = false ∧
    ctot (feedAll st cs).2 ++ (feedAll st cs).1.buffer =
      st.buffer ++ cs.flatten ∧
    rtot (feedAll st cs).2 = [] ∧
    ((feedAll st cs).1.detected = false →
      st.detected = false ∧ ctot (feedAll st cs).2 = []) := by
  induction cs generalizing st with
  | nil =>
    simp only [feedAll, List.flatten_nil, List.append_nil]
    exact ⟨hth, rfl, rfl, fun h => ⟨h, rfl⟩⟩
  | cons s rest ih =>
    simp only [feedAll, List.flatten_cons]
    rw [List.flatten_cons] at hB
    have hBs : tagFree (st.buffer ++ s) := by
      have : st.buffer ++ s ++ rest.flatten =
          st.buffer ++ (s ++ rest.flatten) := by simp
      exact tagFree_prefix (Y := st.buffer ++ s) (Z := rest.flatten)
        (by rw [this]; exact hB)
    obtain ⟨h1, h2, h3, h4⟩ := feedContent_tagFree st s hth hBs
    have hBrest : tagFree ((feedContent st s).1.buffer ++ rest.flatten) := by
      apply tagFree_suffix (Y := ctot (feedContent st s).2)
      have : ctot (feedContent st s).2 ++
          ((feedContent st s).1.buffer ++ rest.flatten) =
          (st.buffer ++ s) ++ rest.flatten := by
        rw [← List.append_assoc, h2]
      rw [this, List.append_assoc]
      exact hB
    obtain ⟨g1, g2, g3, g4⟩ := ih (feedContent st s).1 h1 hBrest
    refine ⟨g1, ?_, ?_, ?_⟩
    · rw [ctot_append, List.append_assoc, g2, ← List.append_assoc, h2,
        List.append_assoc]
    · rw [rtot_append, h3, g3]; rfl
    · intro hdet
      obtain ⟨hd1, hc1⟩ := g4 hdet
      obtain ⟨hd0, hc0⟩ := h4 hd1
      exact ⟨hd0, by rw [ctot_append, hc0, hc1]; rfl⟩

/-- Flushing a marker-free buffer emits it entirely as content. -/
theorem flushEvents_tagFree (st : SplitterSt) (hth : st.inThink = false)
    (hB : tagFree st.buffer) :
    ctot (flushEvents st) = st.buffer ∧ rtot (flushEvents st) = [] := by
  unfold flushEvents flushBody
  by_cases h1 : st.detected = false ∧ st.buffer ≠ []
  · rw [if_pos h1]
    simp only [hB.findOpen, hB.findClose]
    simp [ctot_append, rtot_append, ctot, rtot]
  · rw [if_neg h1]
    by_cases h2 : st.buffer = []
    · rw [if_neg (by simp [h2])]
      simp [ctot, rtot, h2]
    · rw [if_pos h2, hth]
      simp [ctot_append, rtot_append, ctot, rtot]

/-- Claim C3: an input containing no start or end marker at all — of any
length, in particular beyond the 3000-character detection threshold —
split into arbitrary fragments, yields the whole input as content and
empty reasoning. -/
theorem C3_no_markers_all_content (T : List Char) (cs : List (List Char))
    (ho : findOpen T = none) (hc : findClose T = none)
    (hcs : cs.flatten = T) :
    runSplit cs = (T, []) := by
  have hT : tagFree T := tagFree_of_find ho hc
  unfold runSplit
  have hB0 : tagFree (initSplitter.buffer ++ cs.flatten) := by
    simpa [initSplitter, hcs] using hT
  obtain ⟨h1, h2, h3, -⟩ := feedAll_tagFree cs initSplitter rfl hB0
  have hBfin : tagFree (feedAll initSplitter cs).1.buffer := by
    apply tagFree_suffix (Y := ctot (feedAll initSplitter cs).2)
    rw [h2]
    simpa [initSplitter, hcs] using hT
  obtain ⟨f1, f2⟩ := flushEvents_tagFree (feedAll initSplitter cs).1 h1 hBfin
  have hcontent : ctot ((feedAll initSplitter cs).2 ++
      flushEvents (feedAll initSplitter cs).1) = T := by
    rw [ctot_append, f1, h2]
    simp [initSplitter, hcs]
  have hreason : rtot ((feedAll initSplitter cs).2 ++
      flushEvents (feedAll initSplitter cs).1) = [] := by
    rw [rtot_append, f2, h3]; rfl
  exact Prod.ext hcontent hreason

/-! ## The tool-call delta accumulator -/

/-- One streamed tool-call delta: `{index, id?, type?, function:
{name?, arguments?}}`.  `none` models an absent field; `some []` models a
present-but-empty string (both are falsy in JavaScript). -/
structure ToolCallDelta where
  index : Nat
  id : Option (List Char)
  type : Option (List Char)
  fnName : Option (List Char)
  fnArgs : Option (List Char)
  deriving DecidableEq, Repr

/-- JavaScript `x || dflt` for an optional string field. -/
def jsOr (o : Option (List Char)) (dflt : List Char) : List Char :=
  match o with
  | some s => if s = [] then dflt else s
  | none => dflt

/-- JavaScript truthiness of an optional string field. -/
def otruthy : Option (List Char) → Bool
  | some s => !s.isEmpty
  | none => false

/-- Entry created for a fresh index: seeded with the present fields,
missing fields default to the empty string, `type` defaults to
`"function"`. -/
def freshEntry (d : ToolCallDelta) : ToolCall :=
  ⟨jsOr d.id [], jsOr d.type "function".toList, jsOr d.fnName [],
    jsOr d.fnArgs []⟩

/-- `existing.function.arguments += delta.function.arguments` when the
delta carries a non-empty fragment. -/
def updArgs (tc : ToolCall) (d : ToolCallDelta) : ToolCall :=
  if otruthy d.fnArgs then
    { tc with fnArgs := tc.fnArgs ++ d.fnArgs.getD [] }
  else tc

/-- Backfill `id` when the delta carries one and it is not already set. -/
def updId (tc : ToolCall) (d : ToolCallDelta) : ToolCall :=
  if otruthy d.id && tc.id.isEmpty then { tc with id := d.id.getD [] } else tc

/-- Backfill `function.name` when the delta carries one and it is not
already set. -/
def updName (tc : ToolCall) (d : ToolCallDelta) : ToolCall :=
  if otruthy d.fnName && tc.fnName.isEmpty then
    { tc with fnName := d.fnName.getD [] }
  else tc

/-- Update of an existing entry by a subsequent delta: append
`function.arguments`, backfill `id` and `function.name` only when still
empty (in the source's order: arguments, then id, then name). -/
def updateEntry (tc : ToolCall) (d : ToolCallDelta) : ToolCall :=
  updName (updId (updArgs tc d) d) d

/-- The accumulator map `index → ToolCall`, modelled as an association
list in insertion order (a JavaScript `Map` iterates its entries in
insertion order). -/
def accumulate : List (Nat × ToolCall) → ToolCallDelta → List (Nat × ToolCall)
  | [], d => [(d.index, freshEntry d)]
  | (k, tc) :: rest, d =>
    if k = d.index then (k, updateEntry tc d) :: rest
    else (k, tc) :: accumulate rest d

/-- The literal `"{}"` substituted for empty argument strings. -/
def emptyObjArgs : List Char := ['\x7b', '\x7d']

/-- Finalization on `finish_reason`:
`Array.from(accumulatedToolCalls.values())` with empty `arguments`
replaced by `"{}"`. -/
def finalizeToolCalls (acc : List (Nat × ToolCall)) : List ToolCall :=
  acc.map fun p =>
    { p.2 with fnArgs := if p.2.fnArgs = [] then emptyObjArgs else p.2.fnArgs }

/-- Run the accumulator over a whole delta sequence. -/
def accumAll (ds : List ToolCallDelta) : List (Nat × ToolCall) :=
  ds.foldl accumulate []

/-- The spec §8 example: fragmented deltas for one index merge into a
single complete tool call. -/
example :
    finalizeToolCalls (accumAll
      [⟨0, some "a".toList, none, some "f".toList, none⟩,
       ⟨0, none, none, none, some "ar".toList⟩,
       ⟨0, none, none, none, some "gs".toList⟩]) =
      [⟨"a".toList, "function".toList, "f".toList, "args".toList⟩] := by
  decide

/-- An empty-arguments tool call finalizes with arguments `"{}"`. -/
example :
    finalizeToolCalls (accumAll [⟨0, some "a".toList, none, some "f".toList, none⟩]) =
      [⟨"a".toList, "function".toList, "f".toList, emptyObjArgs⟩] := by
  decide

/-- Claim C4's finalization-order conjunct is false: deltas arriving with
index 1 before index 0 finalize in insertion order (index 1 first), not
in ascending index order. -/
theorem C4_counterexample :
    finalizeToolCalls (accumAll
      [⟨1, some "b".toList, none, some "g".toList, none⟩,
       ⟨0, some "a".toList, none, some "f".toList, none⟩]) =
      [⟨"b".toList, "function".toList, "g".toList, emptyObjArgs⟩,
       ⟨"a".toList, "function".toList, "f".toList, emptyObjArgs⟩] ∧
    finalizeToolCalls (accumAll
      [⟨1, some "b".toList, none, some "g".toList, none⟩,
       ⟨0, some "a".toList, none, some "f".toList, none⟩]) ≠
      [⟨"a".toList, "function".toList, "f".toList, emptyObjArgs⟩,
       ⟨"b".toList, "function".toList, "g".toList, emptyObjArgs⟩] := by
  decide

/-! Specification of the accumulator's net effect, used for the amended
C4: which entries exist, in which order, and the value of each field. -/

/-- Indices in order of first appearance. -/
def firstSeen (ds : List ToolCallDelta) : List Nat :=
  ds.foldl (fun ks d => if d.index ∈ ks then ks else ks ++ [d.index]) []

/-- The deltas targeting index `k`, in arrival order. -/
def deltasFor (k : Nat) (ds : List ToolCallDelta) : List ToolCallDelta :=
  ds.filter fun d => d.index == k

/-- Concatenation of all argument fragments of a delta list. -/
def catArgs : List ToolCallDelta → List Char
  | [] => []
  | d :: rest => jsOr d.fnArgs [] ++ catArgs rest

/-- First truthy value of a field across a delta list (empty if none). -/
def firstTruthy (f : ToolCallDelta → Option (List Char)) :
    List ToolCallDelta → List Char
  | [] => []
  | d :: rest => if otruthy (f d) then (f d).getD [] else firstTruthy f rest

/-- The `type` taken from the seeding delta. -/
def specType : List ToolCallDelta → List Char
  | [] => "function".toList
  | d :: _ => jsOr d.type "function".toList

/-- The declarative value of the accumulated entry for one index, given
the deltas that targeted it. -/
def entrySpec (l : List ToolCallDelta) : ToolCall :=
  ⟨firstTruthy (fun d => d.id) l, specType l,
    firstTruthy (fun d => d.fnName) l, catArgs l⟩

theorem otruthy_getD_ne_nil {o : Option (List Char)} (h : otruthy o = true) :
    o.getD [] ≠ [] := by
  cases o with
  | none => simp [otruthy] at h
  | some s =>
    simp only [otruthy, Bool.not_eq_true', List.isEmpty_eq_false] at h
    simpa using h

theorem jsOr_nil_eq (o : Option (List Char)) :
    jsOr o [] = if otruthy o then o.getD [] else [] := by
  cases o with
  | none => rfl
  | some s =>
    by_cases hs : s = [] <;> simp [jsOr, otruthy, hs]

theorem accumulate_map (ks : List Nat) (hnd : ks.Nodup) (f : Nat → ToolCall)
    (d : ToolCallDelta) :
    accumulate (ks.map fun k => (k, f k)) d =
      if d.index ∈ ks then
        ks.map fun k => (k, if k = d.index then updateEntry (f k) d else f k)
      else (ks.map fun k => (k, f k)) ++ [(d.index, freshEntry d)] := by
  induction ks with
  | nil => simp [accumulate]
  | cons k0 ks ih =>
    obtain ⟨hk0, hnd'⟩ := List.nodup_cons.mp hnd
    simp only [List.map_cons, accumulate]
    by_cases hk : k0 = d.index
    · rw [if_pos hk, if_pos (by rw [← hk]; exact List.mem_cons_self _ _)]
      simp only [List.map_cons, if_pos hk]
      congr 1
      apply List.map_congr_left
      intro k hkmem
      have hne : k ≠ d.index := fun h => hk0 (by rw [hk, ← h]; exact hkmem)
      rw [if_neg hne]
    · rw [if_neg hk, ih hnd']
      by_cases hmem : d.index ∈ ks
      · rw [if_pos hmem, if_pos (List.mem_cons_of_mem _ hmem)]
        simp only [List.map_cons, if_neg hk]
      · rw [if_neg hmem, if_neg (by
          intro h
          rcases List.mem_cons.mp h with h | h
          · exact hk h.symm
          · exact hmem h)]
        simp only [List.map_cons, List.cons_append]

theorem mem_firstSeen_aux (p : List ToolCallDelta) (ks : List Nat) (k : Nat) :
    (k ∈ p.foldl (fun ks d => if d.index ∈ ks then ks else ks ++ [d.index]) ks) ↔
      k ∈ ks ∨ ∃ d ∈ p, d.index = k := by
  induction p generalizing ks with
  | nil => simp
  | cons d p ih =>
    simp only [List.foldl_cons, ih]
    constructor
    · rintro (h | h)
      · by_cases hm : d.index ∈ ks
        · rw [if_pos hm] at h
          exact Or.inl h
        · rw [if_neg hm] at h
          rcases List.mem_append.mp h with h | h
          · exact Or.inl h
          · simp at h
            exact Or.inr ⟨d, List.mem_cons_self _ _, h.symm⟩
      · obtain ⟨d', hd', hidx⟩ := h
        exact Or.inr ⟨d', List.mem_cons_of_mem _ hd', hidx⟩
    · rintro (h | h)
      · left
        by_cases hm : d.index ∈ ks
        · rwa [if_pos hm]
        · rw [if_neg hm]
          exact List.mem_append.mpr (Or.inl h)
      · obtain ⟨d', hd', hidx⟩ := h
        rcases List.mem_cons.mp hd' with rfl | hd'
        · left
          by_cases hm : d'.index ∈ ks
          · rw [if_pos hm]; rwa [hidx] at hm
          · rw [if_neg hm]
            simp [hidx]
        · exact Or.inr ⟨d', hd', hidx⟩

theorem mem_firstSeen (p : List ToolCallDelta) (k : Nat) :
    k ∈ firstSeen p ↔ ∃ d ∈ p, d.index = k := by
  rw [firstSeen, mem_firstSeen_aux]
  simp

theorem firstSeen_nodup_aux (p : List ToolCallDelta) (ks : List Nat)
    (h : ks.Nodup) :
    (p.foldl (fun ks d => if d.index ∈ ks then ks else ks ++ [d.index]) ks).Nodup := by
  induction p generalizing ks with
  | nil => exact h
  | cons d p ih =>
    simp only [List.foldl_cons]
    apply ih
    by_cases hm : d.index ∈ ks
    · rwa [if_pos hm]
    · rw [if_neg hm]
      refine List.Nodup.append h (List.nodup_singleton _) ?_
      intro x hx hx'
      simp only [List.mem_singleton] at hx'
      subst hx'
      exact hm hx

theorem firstSeen_nodup (p : List ToolCallDelta) : (firstSeen p).Nodup :=
  firstSeen_nodup_aux p [] List.nodup_nil

theorem firstSeen_append_singleton (p : List ToolCallDelta) (d : ToolCallDelta) :
    firstSeen (p ++ [d]) =
      if d.index ∈ firstSeen p then firstSeen p else firstSeen p ++ [d.index] := by
  simp [firstSeen, List.foldl_append]

theorem deltasFor_append_singleton (k : Nat) (p : List ToolCallDelta)
    (d : ToolCallDelta) :
    deltasFor k (p ++ [d]) =
      deltasFor k p ++ if d.index = k then [d] else [] := by
  simp only [deltasFor, List.filter_append]
  congr 1
  by_cases h : d.index = k <;> simp [h]

theorem catArgs_append (l l' : List ToolCallDelta) :
    catArgs (l ++ l') = catArgs l ++ catArgs l' := by
  induction l with
  | nil => rfl
  | cons d l ih => simp [catArgs, ih]

theorem firstTruthy_append (f : ToolCallDelta → Option (List Char))
    (l l' : List ToolCallDelta) :
    firstTruthy f (l ++ l') =
      if firstTruthy f l = [] then firstTruthy f l' else firstTruthy f l := by
  induction l with
  | nil => simp [firstTruthy]
  | cons d l ih =>
    simp only [List.cons_append, firstTruthy]
    by_cases ht : otruthy (f d)
    · rw [if_pos ht, if_pos ht, if_neg (otruthy_getD_ne_nil ht)]
    · rw [if_neg ht, if_neg ht]
      exact ih

theorem ToolCall_ext {x y : ToolCall} (h1 : x.id = y.id) (h2 : x.type = y.type)
    (h3 : x.fnName = y.fnName) (h4 : x.fnArgs = y.fnArgs) : x = y := by
  cases x; cases y; simp_all

theorem updArgs_id (tc : ToolCall) (d : ToolCallDelta) :
    (updArgs tc d).id = tc.id := by
  unfold updArgs; split <;> rfl

theorem updArgs_type (tc : ToolCall) (d : ToolCallDelta) :
    (updArgs tc d).type = tc.type := by
  unfold updArgs; split <;> rfl

theorem updArgs_fnName (tc : ToolCall) (d : ToolCallDelta) :
    (updArgs tc d).fnName = tc.fnName := by
  unfold updArgs; split <;> rfl

theorem updArgs_fnArgs (tc : ToolCall) (d : ToolCallDelta) :
    (updArgs tc d).fnArgs = tc.fnArgs ++ jsOr d.fnArgs [] := by
  unfold updArgs
  rw [jsOr_nil_eq]
  by_cases ha : otruthy d.fnArgs
  · rw [if_pos ha, if_pos ha]
  · rw [if_neg ha, if_neg ha, List.append_nil]

theorem updId_id (tc : ToolCall) (d : ToolCallDelta) :
    (updId tc d).id =
      if otruthy d.id && tc.id.isEmpty then d.id.getD [] else tc.id := by
  unfold updId; split <;> simp_all

theorem updId_type (tc : ToolCall) (d : ToolCallDelta) :
    (updId tc d).type = tc.type := by
  unfold updId; split <;> rfl

theorem updId_fnName (tc : ToolCall) (d : ToolCallDelta) :
    (updId tc d).fnName = tc.fnName := by
  unfold updId; split <;> rfl

theorem updId_fnArgs (tc : ToolCall) (d : ToolCallDelta) :
    (updId tc d).fnArgs = tc.fnArgs := by
  unfold updId; split <;> rfl

theorem updName_id (tc : ToolCall) (d : ToolCallDelta) :
    (updName tc d).id = tc.id := by
  unfold updName; split <;> rfl

theorem updName_type (tc : ToolCall) (d : ToolCallDelta) :
    (updName tc d).type = tc.type := by
  unfold updName; split <;> rfl

theorem updName_fnName (tc : ToolCall) (d : ToolCallDelta) :
    (updName tc d).fnName =
      if otruthy d.fnName && tc.fnName.isEmpty then d.fnName.getD []
      else tc.fnName := by
  unfold updName; split <;> simp_all

theorem updName_fnArgs (tc : ToolCall) (d : ToolCallDelta) :
    (updName tc d).fnArgs = tc.fnArgs := by
  unfold updName; split <;> rfl

theorem updateEntry_id (tc : ToolCall) (d : ToolCallDelta) :
    (updateEntry tc d).id =
      if otruthy d.id && tc.id.isEmpty then d.id.getD [] else tc.id := by
  unfold updateEntry
  rw [updName_id, updId_id, updArgs_id]

theorem updateEntry_type (tc : ToolCall) (d : ToolCallDelta) :
    (updateEntry tc d).type = tc.type := by
  unfold updateEntry
  rw [updName_type, updId_type, updArgs_type]

theorem updateEntry_fnName (tc : ToolCall) (d : ToolCallDelta) :
    (updateEntry tc d).fnName =
      if otruthy d.fnName && tc.fnName.isEmpty then d.fnName.getD []
      else tc.fnName := by
  unfold updateEntry
  rw [updName_fnName, updId_fnName, updArgs_fnName]

theorem updateEntry_fnArgs (tc : ToolCall) (d : ToolCallDelta) :
    (updateEntry tc d).fnArgs = tc.fnArgs ++ jsOr d.fnArgs [] := by
  unfold updateEntry
  rw [updName_fnArgs, updId_fnArgs, updArgs_fnArgs]

theorem firstTruthy_singleton (f : ToolCallDelta → Option (List Char))
    (d : ToolCallDelta) :
    firstTruthy f [d] = if otruthy (f d) then (f d).getD [] else [] := by
  simp [firstTruthy]

theorem entrySpec_snoc {l : List ToolCallDelta} (d : ToolCallDelta)
    (hl : l ≠ []) :
    entrySpec (l ++ [d]) = updateEntry (entrySpec l) d := by
  apply ToolCall_ext
  · show firstTruthy (fun d => d.id) (l ++ [d]) = _
    rw [updateEntry_id, firstTruthy_append, firstTruthy_singleton]
    show _ = if otruthy d.id && (firstTruthy (fun d => d.id) l).isEmpty then
      d.id.getD [] else firstTruthy (fun d => d.id) l
    by_cases hI : firstTruthy (fun d => d.id) l = []
    · rw [if_pos hI, hI]
      by_cases hd : otruthy d.id <;> simp [hd]
    · have hIE : (firstTruthy (fun d => d.id) l).isEmpty = false :=
        List.isEmpty_eq_false.mpr hI
      rw [if_neg hI, if_neg (by simp [hIE])]
  · show specType (l ++ [d]) = _
    rw [updateEntry_type]
    obtain ⟨d0, l0, rfl⟩ := List.exists_cons_of_ne_nil hl
    rfl
  · show firstTruthy (fun d => d.fnName) (l ++ [d]) = _
    rw [updateEntry_fnName, firstTruthy_append, firstTruthy_singleton]
    show _ = if otruthy d.fnName && (firstTruthy (fun d => d.fnName) l).isEmpty then
      d.fnName.getD [] else firstTruthy (fun d => d.fnName) l
    by_cases hI : firstTruthy (fun d => d.fnName) l = []
    · rw [if_pos hI, hI]
      by_cases hd : otruthy d.fnName <;> simp [hd]
    · have hIE : (firstTruthy (fun d => d.fnName) l).isEmpty = false :=
        List.isEmpty_eq_false.mpr hI
      rw [if_neg hI, if_neg (by simp [hIE])]
  · show catArgs (l ++ [d]) = _
    rw [updateEntry_fnArgs, catArgs_append]
    show _ = catArgs l ++ _
    simp [catArgs]

theorem entrySpec_singleton (d : ToolCallDelta) :
    entrySpec [d] = freshEntry d := by
  apply ToolCall_ext
  · show firstTruthy (fun d => d.id) [d] = jsOr d.id []
    rw [firstTruthy_singleton, jsOr_nil_eq]
  · rfl
  · show firstTruthy (fun d => d.fnName) [d] = jsOr d.fnName []
    rw [firstTruthy_singleton, jsOr_nil_eq]
  · show catArgs [d] = jsOr d.fnArgs []
    simp [catArgs]

/-- The accumulator refines its declarative specification: after any
delta sequence, the map holds one entry per distinct index in order of
first appearance, whose id and name are the first non-empty values seen,
whose type comes from the seeding delta (default `"function"`), and
whose arguments are the concatenation of all argument fragments. -/
theorem accumAll_spec (ds : List ToolCallDelta) :
    accumAll ds =
      (firstSeen ds).map fun k => (k, entrySpec (deltasFor k ds)) := by
  induction ds using List.reverseRecOn with
  | nil => rfl
  | append_singleton p d ih =>
    have hstep : accumAll (p ++ [d]) = accumulate (accumAll p) d := by
      simp [accumAll, List.foldl_append]
    rw [hstep, ih, accumulate_map _ (firstSeen_nodup p),
      firstSeen_append_singleton]
    by_cases hmem : d.index ∈ firstSeen p
    · rw [if_pos hmem, if_pos hmem]
      apply List.map_congr_left
      intro k hk
      by_cases hkd : k = d.index
      · subst hkd
        rw [if_pos rfl, deltasFor_append_singleton, if_pos rfl]
        have hne : deltasFor d.index p ≠ [] := by
          rw [mem_firstSeen] at hmem
          obtain ⟨d', hd', hidx⟩ := hmem
          intro hnil
          have hmemf : d' ∈ deltasFor d.index p := by
            simp [deltasFor, List.mem_filter, hd', hidx]
          rw [hnil] at hmemf
          cases hmemf
        rw [entrySpec_snoc d hne]
      · rw [if_neg hkd, deltasFor_append_singleton,
          if_neg (fun h => hkd h.symm), List.append_nil]
    · rw [if_neg hmem, if_neg hmem, List.map_append]
      congr 1
      · apply List.map_congr_left
        intro k hk
        have hkd : d.index ≠ k := fun h => hmem (h ▸ hk)
        rw [deltasFor_append_singleton, if_neg hkd, List.append_nil]
      · simp only [List.map_cons, List.map_nil]
        have hempty : deltasFor d.index p = [] := by
          rw [mem_firstSeen] at hmem
          cases hfil : deltasFor d.index p with
          | nil => rfl
          | cons x xs =>
            exfalso
            apply hmem
            refine ⟨x, ?_, ?_⟩
            · have : x ∈ deltasFor d.index p := by rw [hfil]; exact List.mem_cons_self _ _
              exact List.mem_of_mem_filter this
            · have : x ∈ deltasFor d.index p := by rw [hfil]; exact List.mem_cons_self _ _
              have := List.of_mem_filter this
              simpa using this
        rw [deltasFor_append_singleton, hempty, if_pos rfl, List.nil_append,
          entrySpec_singleton]

/-- Amended claim C4: a fresh index creates an entry seeded with the
present fields (missing fields default to empty, type defaults to
`"function"`), an existing index appends `function.arguments` and
backfills `id`/`function.name` first-non-empty-wins, and finalization
yields the entries in order of **first appearance** of each index (not
ascending index order), with empty argument strings replaced by the
literal `"{}"`. -/
theorem C4_amended (ds : List ToolCallDelta) :
    finalizeToolCalls (accumAll ds) =
      (firstSeen ds).map fun k =>
        let e := entrySpec (deltasFor k ds)
        { e with fnArgs := if e.fnArgs = [] then emptyObjArgs else e.fnArgs } := by
  rw [accumAll_spec, finalizeToolCalls, List.map_map]
  rfl

/-! ## The streaming session driver

`streamChatCompletion`'s event loop, modelled at the level of parsed SSE
events.  Each event is either the `[DONE]` sentinel, a structured JSON
frame, or a malformed frame (`JSON.parse` failure — swallowed by the
per-frame `catch`). -/

/-- A parsed JSON delta frame: `{choices: [{delta: {content?, reasoning?,
tool_calls?, finish_reason?}}], usage?}`.  `finish` is the truthiness of
`finish_reason`. -/
structure Frame where
  content : Option (List Char)
  reasoning : Option (List Char)
  toolDeltas : Option (List ToolCallDelta)
  finish : Bool
  usage : Option MessageUsage
  deriving DecidableEq, Repr

/-- One SSE event delivered by the `eventsource-parser` callback. -/
inductive SSEEvent where
  | done : SSEEvent
  | frame : Frame → SSEEvent
  | malformed : SSEEvent
  deriving DecidableEq, Repr

/-- Driver-internal state: splitter state plus the tool-call
accumulator. -/
structure DriverSt where
  split : SplitterSt
  acc : List (Nat × ToolCall)
  deriving DecidableEq, Repr

/-- Initial driver state. -/
def initDriver : DriverSt := ⟨initSplitter, []⟩

/-- Processing of one SSE event by the parser callback: `[DONE]` flushes
and completes; a JSON frame routes `delta.content` through the splitter,
forwards `delta.reasoning` and `usage`, accumulates `tool_calls` deltas,
and on a truthy `finish_reason` emits usage first and then the finalized
tool calls (without completing); a malformed frame is skipped. -/
def stepEvent (st : DriverSt) : SSEEvent → DriverSt × List CB
  | SSEEvent.done => (⟨flushSt st.split, st.acc⟩, flushEvents st.split)
  | SSEEvent.malformed => (st, [])
  | SSEEvent.frame f =>
    let p := feedContent st.split (f.content.getD [])
    let evs2 := if otruthy f.reasoning then [CB.reasoning (f.reasoning.getD [])] else []
    let evs3 := match f.usage with
      | some u => [CB.usage u]
      | none => []
    let acc2 := match f.toolDeltas with
      | some ds => ds.foldl accumulate st.acc
      | none => st.acc
    let evs4 :=
      if f.finish then
        (match f.usage with
         | some u => [CB.usage u]
         | none => []) ++
        (if acc2 ≠ [] then [CB.toolCalls (finalizeToolCalls acc2)] else [])
      else []
    (⟨p.1, acc2⟩, p.2 ++ evs2 ++ evs3 ++ evs4)

/-- Run the parser over a list of events. -/
def runEvents (st : DriverSt) : List SSEEvent → DriverSt × List CB
  | [] => (st, [])
  | e :: rest =>
    let p := stepEvent st e
    let q := runEvents p.1 rest
    (q.1, p.2 ++ q.2)

/-- How the read loop ends: the reader reports `done`, the read throws
`AbortError` (cancellation), or the read throws another error
(transport failure, rethrown to the outer catch). -/
inductive StreamEnd where
  | streamEnd : StreamEnd
  | abort : StreamEnd
  | readErr : List Char → StreamEnd
  deriving DecidableEq, Repr

/-- The full callback trace of the read loop of `streamChatCompletion`
on a 2xx response: process all parsed events, then handle the loop end —
`done` and `AbortError` both flush through `flushBufferAndComplete`;
any other read error reaches the outer catch and calls `onError`. -/
def runStream (evs : List SSEEvent) (e : StreamEnd) : List CB :=
  let p := runEvents initDriver evs
  match e with
  | StreamEnd.streamEnd => p.2 ++ flushEvents p.1.split
  | StreamEnd.abort => p.2 ++ flushEvents p.1.split
  | StreamEnd.readErr msg => p.2 ++ [CB.error msg]

/-- An HTTP response as seen by `streamChatCompletion`: status
information, the parsed `error.message` of the body if the body is JSON
with one (for non-2xx handling), and the SSE events of the body. -/
structure HttpResponse where
  ok : Bool
  status : Nat
  statusText : List Char
  errBodyMsg : Option (List Char)
  events : List SSEEvent
  ending : StreamEnd
  deriving Repr

/-- The error message for a non-2xx response:
`errorData.error?.message || "HTTP <status>: <statusText>"`. -/
def httpErrorMessage (r : HttpResponse) : List Char :=
  let dflt := "HTTP ".toList ++ (toString r.status).toList ++ ": ".toList ++
    r.statusText
  match r.errBodyMsg with
  | some m => if m = [] then dflt else m
  | none => dflt

/-- The whole driver call: an abort before the response reaches the
outer catch directly (`onComplete()`, nothing to flush); a non-2xx
response throws and reaches `onError` with the extracted message;
otherwise the read loop runs. -/
def runDriver (r : HttpResponse) (abortBeforeResponse : Bool) : List CB :=
  if abortBeforeResponse then [CB.complete]
  else if r.ok then runStream r.events r.ending
  else [CB.error (httpErrorMessage r)]

theorem complete_notMem_pbEvents (r : PBResult) :
    CB.complete ∉ pbEvents r := by
  unfold pbEvents
  by_cases hc : r.content = [] <;> by_cases hr : r.reasoning = [] <;>
    simp [hc, hr]

theorem complete_notMem_feedContent (st : SplitterSt) (s : List Char) :
    CB.complete ∉ (feedContent st s).2 := by
  unfold feedContent
  by_cases hs : s = []
  · simp [hs]
  · rw [if_neg hs]
    by_cases hd : st.detected
    · simp only [hd, if_true]
      exact complete_notMem_pbEvents _
    · simp only [hd, Bool.false_eq_true, if_false]
      cases ho : findOpen (st.buffer ++ s) with
      | some p =>
        obtain ⟨io, lo⟩ := p
        simp only
        intro hmem
        rcases List.mem_append.mp hmem with h | h
        · split at h <;> simp_all
        · exact complete_notMem_pbEvents _ h
      | none =>
        cases hc : findClose (st.buffer ++ s) with
        | some p =>
          obtain ⟨ic, lc⟩ := p
          simp only
          intro hmem
          rcases List.mem_append.mp hmem with h | h
          · split at h <;> simp_all
          · exact complete_notMem_pbEvents _ h
        | none =>
          by_cases hlen : 3000 ≤ (st.buffer ++ s).length
          · simp only [hlen, if_true]
            exact complete_notMem_pbEvents _
          · rw [if_neg hlen]
            simp

/-- A helper for temporal ordering: if `usage` occurs in a prefix block
that contains no `toolCalls` event, then in any decomposition of the
trace exposing a `toolCalls` event, the `usage` lies before it. -/
theorem usage_before_toolCalls_of_blocks {l1 l2 : List CB} {u : MessageUsage}
    (hu : CB.usage u ∈ l1) (hno : ∀ x, CB.toolCalls x ∉ l1) :
    ∀ pre post x, l1 ++ l2 = pre ++ CB.toolCalls x :: post →
      CB.usage u ∈ pre := by
  intro pre post x heq
  rcases List.append_eq_append_iff.mp heq with ⟨a', ha1, ha2⟩ | ⟨c', hc1, hc2⟩
  · -- pre = l1 ++ a'
    rw [ha1]
    exact List.mem_append.mpr (Or.inl hu)
  · -- l1 = pre ++ c', toolCalls x :: post = c' ++ l2
    cases c' with
    | nil =>
      rw [List.append_nil] at hc1
      rw [← hc1]
      exact hu
    | cons y ys =>
      exfalso
      have hy : y = CB.toolCalls x := by
        have := congrArg (fun l => l.head?) hc2
        simpa using this.symm
      apply hno x
      rw [hc1, hy]
      exact List.mem_append.mpr (Or.inr (List.mem_cons_self _ _))

/-- Events produced by the splitter are only `onChunk`/`onReasoning`
invocations. -/
def isTextEvent (e : CB) : Prop :=
  (∃ c, e = CB.chunk c) ∨ ∃ c, e = CB.reasoning c

theorem pbEvents_shape (r : PBResult) : ∀ e ∈ pbEvents r, isTextEvent e := by
  intro e he
  unfold pbEvents at he
  rcases List.mem_append.mp he with h | h
  · split at h <;> simp_all [isTextEvent]
  · split at h <;> simp_all [isTextEvent]

theorem feedContent_shape (st : SplitterSt) (s : List Char) :
    ∀ e ∈ (feedContent st s).2, isTextEvent e := by
  intro e he
  unfold feedContent at he
  by_cases hs : s = []
  · simp [hs] at he
  · rw [if_neg hs] at he
    by_cases hd : st.detected
    · simp only [hd, if_true] at he
      exact pbEvents_shape _ e he
    · simp only [hd, Bool.false_eq_true, if_false] at he
      cases ho : findOpen (st.buffer ++ s) with
      | some p =>
        obtain ⟨io, lo⟩ := p
        rw [ho] at he
        simp only at he
        rcases List.mem_append.mp he with h | h
        · split at h <;> simp_all [isTextEvent]
        · exact pbEvents_shape _ e h
      | none =>
        rw [ho] at he
        cases hc : findClose (st.buffer ++ s) with
        | some p =>
          obtain ⟨ic, lc⟩ := p
          rw [hc] at he
          simp only at he
          rcases List.mem_append.mp he with h | h
          · split at h <;> simp_all [isTextEvent]
          · exact pbEvents_shape _ e h
        | none =>
          rw [hc] at he
          by_cases hlen : 3000 ≤ (st.buffer ++ s).length
          · simp only [hlen, if_true] at he
            exact pbEvents_shape _ e he
          · rw [if_neg hlen] at he
            simp at he

theorem flushBody_shape (st : SplitterSt) :
    ∀ e ∈ flushBody st, isTextEvent e := by
  intro e he
  unfold flushBody at he
  split at he
  · cases ho : findOpen st.buffer with
    | some p =>
      obtain ⟨io, lo⟩ := p
      rw [ho] at he
      simp only at he
      rcases List.mem_append.mp he with h | h
      · split at h <;> simp_all [isTextEvent]
      · cases hc : findClose (st.buffer.drop (io + lo)) with
        | some q =>
          obtain ⟨jc, jl⟩ := q
          rw [hc] at h
          rcases List.mem_append.mp h with h2 | h2 <;>
            · split at h2 <;> simp_all [isTextEvent]
        | none =>
          rw [hc] at h
          split at h <;> simp_all [isTextEvent]
    | none =>
      rw [ho] at he
      cases hc : findClose st.buffer with
      | some p =>
        obtain ⟨ic, lc⟩ := p
        rw [hc] at he
        rcases List.mem_append.mp he with h | h <;>
          · split at h <;> simp_all [isTextEvent]
      | none =>
        rw [hc] at he
        simp_all [isTextEvent]
  · split at he
    · split at he <;> simp_all [isTextEvent]
    · simp at he

theorem isTextEvent_ne_complete {e : CB} (h : isTextEvent e) :
    e ≠ CB.complete := by
  rcases h with ⟨c, rfl⟩ | ⟨c, rfl⟩ <;> intro h' <;> cases h'

theorem isTextEvent_ne_toolCalls {e : CB} (h : isTextEvent e) (x : List ToolCall) :
    e ≠ CB.toolCalls x := by
  rcases h with ⟨c, rfl⟩ | ⟨c, rfl⟩ <;> intro h' <;> cases h'

theorem isTextEvent_ne_error {e : CB} (h : isTextEvent e) (m : List Char) :
    e ≠ CB.error m := by
  rcases h with ⟨c, rfl⟩ | ⟨c, rfl⟩ <;> intro h' <;> cases h'

theorem error_notMem_stepEvent (st : DriverSt) (e : SSEEvent) (m : List Char) :
    CB.error m ∉ (stepEvent st e).2 := by
  cases e with
  | done =>
    intro h
    unfold stepEvent at h
    rw [flushEvents] at h
    rcases List.mem_append.mp h with h | h
    · exact isTextEvent_ne_error (flushBody_shape _ _ h) m rfl
    · simp at h
  | malformed => simp [stepEvent]
  | frame f =>
    intro h
    unfold stepEvent at h
    simp only at h
    rcases List.mem_append.mp h with h | h
    · rcases List.mem_append.mp h with h | h
      · rcases List.mem_append.mp h with h | h
        · exact isTextEvent_ne_error (feedContent_shape _ _ _ h) m rfl
        · split at h <;> simp_all
      · split at h <;> simp_all
    · split at h
      · rcases List.mem_append.mp h with h | h
        · split at h <;> simp_all
        · split at h <;> simp_all
      · simp at h

theorem complete_notMem_stepEvent (st : DriverSt) (e : SSEEvent)
    (hne : e ≠ SSEEvent.done) :
    CB.complete ∉ (stepEvent st e).2 := by
  cases e with
  | done => exact absurd rfl hne
  | malformed => simp [stepEvent]
  | frame f =>
    intro h
    unfold stepEvent at h
    simp only at h
    rcases List.mem_append.mp h with h | h
    · rcases List.mem_append.mp h with h | h
      · rcases List.mem_append.mp h with h | h
        · exact complete_notMem_feedContent _ _ h
        · split at h <;> simp_all
      · split at h <;> simp_all
    · split at h
      · rcases List.mem_append.mp h with h | h
        · split at h <;> simp_all
        · split at h <;> simp_all
      · simp at h

theorem toolCalls_notMem_frameHead (st : DriverSt) (f : Frame)
    (x : List ToolCall) :
    CB.toolCalls x ∉
      (feedContent st.split (f.content.getD [])).2 ++
      (if otruthy f.reasoning then [CB.reasoning (f.reasoning.getD [])] else []) ++
      (match f.usage with
       | some u => [CB.usage u]
       | none => []) := by
  intro h
  rcases List.mem_append.mp h with h | h
  · rcases List.mem_append.mp h with h | h
    · exact isTextEvent_ne_toolCalls (feedContent_shape _ _ _ h) x rfl
    · split at h <;> simp_all
  · split at h <;> simp_all

/-- Claim C5: on a frame carrying a finish-reason together with usage
data, `onUsage` fires before any `onToolCalls` of that frame, and
`onComplete` does not fire on that frame; `onComplete` fires on the
`[DONE]` sentinel (and, via the read loop, at stream end). -/
theorem C5_finish_frame_ordering (st st' : DriverSt) (f : Frame)
    (u : MessageUsage) (hf : f.finish = true) (hu : f.usage = some u) :
    CB.complete ∉ (stepEvent st (SSEEvent.frame f)).2 ∧
    (∀ pre post x,
      (stepEvent st (SSEEvent.frame f)).2 = pre ++ CB.toolCalls x :: post →
        CB.usage u ∈ pre) ∧
    CB.complete ∈ (stepEvent st' SSEEvent.done).2 := by
  refine ⟨complete_notMem_stepEvent st _ (by intro h; cases h), ?_, ?_⟩
  · intro pre post x heq
    have hstep : (stepEvent st (SSEEvent.frame f)).2 =
        ((feedContent st.split (f.content.getD [])).2 ++
          (if otruthy f.reasoning then [CB.reasoning (f.reasoning.getD [])] else []) ++
          (match f.usage with
           | some u => [CB.usage u]
           | none => [])) ++
        (if f.finish then
          (match f.usage with
           | some u => [CB.usage u]
           | none => []) ++
          (if (match f.toolDeltas with
               | some ds => ds.foldl accumulate st.acc
               | none => st.acc) ≠ [] then
            [CB.toolCalls (finalizeToolCalls
              (match f.toolDeltas with
               | some ds => ds.foldl accumulate st.acc
               | none => st.acc))] else [])
         else []) := by
      unfold stepEvent
      simp only [List.append_assoc]
    rw [hstep] at heq
    refine usage_before_toolCalls_of_blocks ?_ ?_ pre post x heq
    · rw [hu]
      exact List.mem_append.mpr (Or.inr (List.mem_cons_self _ _))
    · intro y hy
      have := toolCalls_notMem_frameHead st f y
      rw [hu] at this hy
      exact this hy
  · unfold stepEvent
    rw [flushEvents]
    exact List.mem_append.mpr (Or.inr (List.mem_cons_self _ _))

/-- Witness for C5 at a concrete frame: one tool-call delta, usage `7`,
finish-reason set. -/
theorem C5_finish_frame_ordering_witness :
    CB.complete ∉ (stepEvent initDriver (SSEEvent.frame
      ⟨none, none, some [⟨0, some "a".toList, none, some "f".toList, none⟩],
        true, some 7⟩)).2 ∧
    CB.usage 7 ∈ [CB.usage 7, CB.usage 7] := by
  have h := C5_finish_frame_ordering initDriver initDriver
    ⟨none, none, some [⟨0, some "a".toList, none, some "f".toList, none⟩],
      true, some 7⟩ 7 rfl rfl
  refine ⟨h.1, ?_⟩
  refine h.2.1 [CB.usage 7, CB.usage 7] []
    [⟨"a".toList, "function".toList, "f".toList, emptyObjArgs⟩] ?_
  decide

theorem runEvents_no_error (evs : List SSEEvent) (st : DriverSt)
    (m : List Char) : CB.error m ∉ (runEvents st evs).2 := by
  induction evs generalizing st with
  | nil => simp [runEvents]
  | cons e rest ih =>
    intro h
    unfold runEvents at h
    rcases List.mem_append.mp h with h | h
    · exact error_notMem_stepEvent st e m h
    · exact ih _ h

theorem runEvents_no_complete (evs : List SSEEvent) (st : DriverSt)
    (hnd : ∀ e ∈ evs, e ≠ SSEEvent.done) :
    CB.complete ∉ (runEvents st evs).2 := by
  induction evs generalizing st with
  | nil => simp [runEvents]
  | cons e rest ih =>
    intro h
    unfold runEvents at h
    rcases List.mem_append.mp h with h | h
    · exact complete_notMem_stepEvent st e (hnd e (List.mem_cons_self _ _)) h
    · exact ih _ (fun e' he' => hnd e' (List.mem_cons_of_mem _ he')) h

theorem error_notMem_flushEvents (st : SplitterSt) (m : List Char) :
    CB.error m ∉ flushEvents st := by
  intro h
  rw [flushEvents] at h
  rcases List.mem_append.mp h with h | h
  · exact isTextEvent_ne_error (flushBody_shape _ _ h) m rfl
  · simp at h

theorem count_complete_flushEvents (st : SplitterSt) :
    (flushEvents st).count CB.complete = 1 := by
  rw [flushEvents, List.count_append]
  have h0 : (flushBody st).count CB.complete = 0 := by
    rw [List.count_eq_zero]
    intro h
    exact isTextEvent_ne_complete (flushBody_shape _ _ h) rfl
  rw [h0]
  rfl

/-- Claim C6's "exactly once" is false: a stream consisting of a
`[DONE]` frame followed by the natural end of the byte stream invokes
`onComplete` twice — once from the sentinel handler and once from the
`done`-read flush. -/
theorem C6_counterexample :
    (runStream [SSEEvent.done] StreamEnd.streamEnd).count CB.complete = 2 := by
  decide

/-- Amended claim C6: cancellation aborts the read and flushes through
exactly the normal end-of-stream path (the abort trace *equals* the
normal stream-end trace), `onError` is never invoked for a cancelled
stream (nor for a cancellation before the response arrived, which
completes immediately), and `onComplete` fires exactly once provided no
`[DONE]` sentinel was processed before the stream ended — each processed
`[DONE]` adds one further `onComplete`. -/
theorem C6_amended (evs : List SSEEvent)
    (hnd : ∀ e ∈ evs, e ≠ SSEEvent.done) (r : HttpResponse) :
    runStream evs StreamEnd.abort = runStream evs StreamEnd.streamEnd ∧
    (∀ m, CB.error m ∉ runStream evs StreamEnd.abort) ∧
    (runStream evs StreamEnd.abort).count CB.complete = 1 ∧
    runDriver r true = [CB.complete] := by
  refine ⟨rfl, ?_, ?_, rfl⟩
  · intro m h
    unfold runStream at h
    rcases List.mem_append.mp h with h | h
    · exact runEvents_no_error evs initDriver m h
    · exact error_notMem_flushEvents _ m h
  · unfold runStream
    rw [List.count_append, count_complete_flushEvents,
      List.count_eq_zero.mpr (runEvents_no_complete evs initDriver hnd)]

/-- Witness for C6 at a concrete cancelled stream. -/
theorem C6_amended_witness :
    runStream [SSEEvent.frame ⟨some "hi".toList, none, none, false, none⟩]
        StreamEnd.abort =
      runStream [SSEEvent.frame ⟨some "hi".toList, none, none, false, none⟩]
        StreamEnd.streamEnd ∧
    (runStream [SSEEvent.frame ⟨some "hi".toList, none, none, false, none⟩]
        StreamEnd.abort).count CB.complete = 1 ∧
    runDriver ⟨true, 200, "OK".toList, none, [], StreamEnd.streamEnd⟩ true =
      [CB.complete] := by
  have h := C6_amended
    [SSEEvent.frame ⟨some "hi".toList, none, none, false, none⟩]
    (by intro e he; simp at he; subst he; intro h; cases h)
    ⟨true, 200, "OK".toList, none, [], StreamEnd.streamEnd⟩
  exact ⟨h.1, h.2.2.1, h.2.2.2⟩

theorem runEvents_malformed_mid (l1 : List SSEEvent) (st : DriverSt)
    (l2 : List SSEEvent) :
    runEvents st (l1 ++ SSEEvent.malformed :: l2) = runEvents st (l1 ++ l2) := by
  induction l1 generalizing st with
  | nil =>
    simp only [List.nil_append]
    show (fun p => ((runEvents p.1 l2).1, p.2 ++ (runEvents p.1 l2).2))
        (stepEvent st SSEEvent.malformed) = runEvents st l2
    simp [stepEvent]
  | cons e l1 ih =>
    simp only [List.cons_append, runEvents]
    rw [show l1.append (SSEEvent.malformed :: l2) =
      l1 ++ SSEEvent.malformed :: l2 from rfl, ih,
      show l1.append l2 = l1 ++ l2 from rfl]

/-- Claim C7: a malformed frame anywhere in the stream is skipped and
the rest of the stream is processed identically; `onError` arises only
from a transport failure (a read error, or a non-2xx response whose
message is extracted from the body when possible and otherwise falls
back to `HTTP <status>: <statusText>`). -/
theorem C7_malformed_skipped (l1 l2 : List SSEEvent) (e : StreamEnd)
    (r : HttpResponse) :
    runStream (l1 ++ SSEEvent.malformed :: l2) e = runStream (l1 ++ l2) e ∧
    (∀ m, CB.error m ∈ runStream (l1 ++ l2) e →
      ∃ msg, e = StreamEnd.readErr msg ∧ m = msg) ∧
    (r.ok = false → runDriver r false = [CB.error (httpErrorMessage r)]) ∧
    (∀ m, r.errBodyMsg = some m → m ≠ [] → httpErrorMessage r = m) ∧
    (r.errBodyMsg = none → httpErrorMessage r =
      "HTTP ".toList ++ (toString r.status).toList ++ ": ".toList ++
        r.statusText) := by
  refine ⟨?_, ?_, ?_, ?_, ?_⟩
  · cases e <;> simp [runStream, runEvents_malformed_mid]
  · intro m h
    cases e with
    | streamEnd =>
      exfalso
      unfold runStream at h
      rcases List.mem_append.mp h with h | h
      · exact runEvents_no_error _ initDriver m h
      · exact error_notMem_flushEvents _ m h
    | abort =>
      exfalso
      unfold runStream at h
      rcases List.mem_append.mp h with h | h
      · exact runEvents_no_error _ initDriver m h
      · exact error_notMem_flushEvents _ m h
    | readErr msg =>
      refine ⟨msg, rfl, ?_⟩
      unfold runStream at h
      rcases List.mem_append.mp h with h | h
      · exact absurd h (runEvents_no_error _ initDriver m)
      · simpa using h
  · intro hok
    simp [runDriver, hok]
  · intro m hm hne
    simp [httpErrorMessage, hm, hne]
  · intro hm
    simp [httpErrorMessage, hm]

/-- Witness for C7 at a concrete stream and a concrete 500 response. -/
theorem C7_malformed_skipped_witness :
    runStream [SSEEvent.frame ⟨some "a".toList, none, none, false, none⟩,
        SSEEvent.malformed] (StreamEnd.readErr "boom".toList) =
      runStream [SSEEvent.frame ⟨some "a".toList, none, none, false, none⟩]
        (StreamEnd.readErr "boom".toList) ∧
    runDriver ⟨false, 500, "Server Error".toList, none, [],
        StreamEnd.streamEnd⟩ false =
      [CB.error (httpErrorMessage ⟨false, 500, "Server Error".toList, none, [],
        StreamEnd.streamEnd⟩)] ∧
    httpErrorMessage ⟨false, 500, "Server Error".toList, none, [],
        StreamEnd.streamEnd⟩ =
      "HTTP ".toList ++ (toString (500 : Nat)).toList ++ ": ".toList ++
        "Server Error".toList := by
  have h := C7_malformed_skipped
    [SSEEvent.frame ⟨some "a".toList, none, none, false, none⟩] []
    (StreamEnd.readErr "boom".toList)
    ⟨false, 500, "Server Error".toList, none, [], StreamEnd.streamEnd⟩
  exact ⟨h.1, h.2.2.1 rfl, h.2.2.2.2 rfl⟩

/-! ## The tool-calling orchestration loop

`sendStreamingMessageWithTools`: the bounded `while (shouldContinue &&
iteration < MAX_TOOL_ITERATIONS)` loop alternating LLM streaming calls
with tool execution.  The streaming driver and the tool executor are
external collaborators, passed as functions. -/

/-- Message roles. -/
inductive Role where
  | system | user | assistant | tool
  deriving DecidableEq, Repr

/-- One message of the conversation (both the LLM-facing `messages`
array and the persisted history). -/
structure Msg where
  role : Role
  content : List Char
  toolCalls : Option (List ToolCall)
  tool_call_id : Option (List Char)
  name : Option (List Char)
  deriving DecidableEq, Repr

/-- Outcome of one streaming call: the accumulated assistant content and
the tool calls delivered by `onToolCalls`, or a streaming error
(`onError` → promise rejection). -/
inductive StreamOutcome where
  | ok : List Char → List ToolCall → StreamOutcome
  | err : List Char → StreamOutcome
  deriving DecidableEq, Repr

/-- Result of executing one tool call. -/
structure ToolResultM where
  tool_call_id : List Char
  name : List Char
  content : List Char
  isError : Bool
  hasUI : Bool
  deriving DecidableEq, Repr

/-- What one tool execution produces (before being packaged with the
call's id and name). -/
structure ExecOut where
  content : List Char
  isError : Bool
  hasUI : Bool
  deriving DecidableEq, Repr

/-- Modelled from the spec: `ToolIntegrationService.executeToolCalls` is
not part of the source snapshot (only its call site in the loop is).
Per §6 of the spec, the batched executor returns exactly one ToolResult
per input call — a failing call yields a result with `isError: true`,
not an exception that skips remaining calls — and each result carries
the call's id and name. -/
def executeToolCalls (exec : ToolCall → ExecOut) (tcs : List ToolCall) :
    List ToolResultM :=
  tcs.map fun tc =>
    ⟨tc.id, tc.fnName, (exec tc).content, (exec tc).isError, (exec tc).hasUI⟩

/-- The confirmation string sent to the model in place of a rich UI
payload. -/
def uiConfirmMsg (name : List Char) : List Char :=
  ("Interactive UI component displayed successfully. " ++
    "The user can now interact with the ").toList ++ name ++
    " interface.".toList

/-- The content string of the `tool`-role message for one result. -/
def toolResultContent (r : ToolResultM) : List Char :=
  if r.hasUI then uiConfirmMsg r.name else r.content

/-- The `tool`-role message appended for one result. -/
def toolResultMsg (r : ToolResultM) : Msg :=
  ⟨Role.tool, toolResultContent r, none, some r.tool_call_id, some r.name⟩

/-- The tool-choice policy sent on one request:
`!hasTools ? 'none' : (iteration >= MAX_TOOL_ITERATIONS - 1 ? 'none' :
'auto')`. -/
inductive ToolChoice where
  | choiceNone | choiceAuto
  deriving DecidableEq, Repr

/-- `MAX_TOOL_ITERATIONS`. -/
def maxToolIterations : Nat := 5

def toolChoiceFor (hasTools : Bool) (iteration : Nat) : ToolChoice :=
  if !hasTools then ToolChoice.choiceNone
  else if maxToolIterations - 1 ≤ iteration then ToolChoice.choiceNone
  else ToolChoice.choiceAuto

/-- The error string dispatched when the iteration cap binds. -/
def maxIterMsg : List Char := "Maximum tool calling iterations reached".toList

/-- Loop state: the LLM-facing messages array, the persisted history
(`addToolCallMessage` dispatches), the log of issued requests
(iteration, tool choice), the `setError` dispatches, the iteration
counter, whether the loop exited by producing a final answer
(`shouldContinue = false`), and whether an exception aborted the turn. -/
structure LoopSt where
  msgs : List Msg
  history : List Msg
  reqs : List (Nat × ToolChoice)
  errors : List (List Char)
  iteration : Nat
  finishedNoTools : Bool
  aborted : Bool
  deriving DecidableEq, Repr

/-- The loop body, fuelled (5 fuel always suffices: every recursive call
increments `iteration`, and the loop runs only while `iteration < 5`). -/
def runLoopAux (driver : Nat → StreamOutcome) (exec : ToolCall → ExecOut)
    (hasTools : Bool) : Nat → LoopSt → LoopSt
  | 0, st => st
  | fuel + 1, st =>
    if st.iteration < maxToolIterations then
      let st1 := { st with
        reqs := st.reqs ++ [(st.iteration, toolChoiceFor hasTools st.iteration)] }
      match driver st.iteration with
      | StreamOutcome.err m =>
        { st1 with errors := st1.errors ++ [m], aborted := true }
      | StreamOutcome.ok content toolCalls =>
        if toolCalls ≠ [] then
          let aMsg : Msg := ⟨Role.assistant, content, some toolCalls, none, none⟩
          let results := executeToolCalls exec toolCalls
          let tMsgs := results.map toolResultMsg
          runLoopAux driver exec hasTools fuel { st1 with
            msgs := st1.msgs ++ aMsg :: tMsgs,
            history := st1.history ++ aMsg :: tMsgs,
            iteration := st1.iteration + 1 }
        else
          { st1 with finishedNoTools := true }
    else st

/-- Initial loop state: prior history plus the new user message. -/
def initLoop (history0 : List Msg) (userContent : List Char) : LoopSt :=
  let userMsg : Msg := ⟨Role.user, userContent, none, none, none⟩
  ⟨history0 ++ [userMsg], history0 ++ [userMsg], [], [], 0, false, false⟩

/-- The whole thunk: run the loop, then — unless an exception aborted
the turn — dispatch the max-iterations error if the cap was reached
while tool calls were still being produced. -/
def runLoop (driver : Nat → StreamOutcome) (exec : ToolCall → ExecOut)
    (hasTools : Bool) (history0 : List Msg) (userContent : List Char) :
    LoopSt :=
  let st := runLoopAux driver exec hasTools maxToolIterations
    (initLoop history0 userContent)
  if st.aborted then st
  else if maxToolIterations ≤ st.iteration ∧ st.finishedNoTools = false then
    { st with errors := st.errors ++ [maxIterMsg] }
  else st

theorem runLoopAux_spec (driver : Nat → StreamOutcome)
    (exec : ToolCall → ExecOut) (N : Nat)
    (hd : ∀ i, i < N → ∃ c tcs, driver i = StreamOutcome.ok c tcs ∧ tcs ≠ [])
    (hN : N < maxToolIterations → ∃ c, driver N = StreamOutcome.ok c []) :
    ∀ fuel st, st.iteration + fuel = maxToolIterations → st.iteration ≤ N →
      st.aborted = false → st.finishedNoTools = false →
      (runLoopAux driver exec true fuel st).iteration = min maxToolIterations N ∧
      (runLoopAux driver exec true fuel st).reqs = st.reqs ++
        (List.range' st.iteration
          (min maxToolIterations N + (if N < maxToolIterations then 1 else 0) -
            st.iteration)).map (fun i => (i, toolChoiceFor true i)) ∧
      (runLoopAux driver exec true fuel st).errors = st.errors ∧
      (runLoopAux driver exec true fuel st).aborted = false ∧
      ((runLoopAux driver exec true fuel st).finishedNoTools = true ↔
        N < maxToolIterations) := by
  intro fuel
  induction fuel with
  | zero =>
    intro st hfuel hle hab hfin
    have h5 : st.iteration = maxToolIterations := by omega
    have hN5 : maxToolIterations ≤ N := le_trans (le_of_eq h5.symm) hle
    simp only [runLoopAux]
    refine ⟨by omega, ?_, by trivial, hab, ?_⟩
    · have : min maxToolIterations N + (if N < maxToolIterations then 1 else 0) -
          st.iteration = 0 := by
        rw [if_neg (by omega)]
        omega
      rw [this]
      simp
    · rw [hfin]
      constructor
      · intro h; cases h
      · intro h; omega
  | succ fuel ih =>
    intro st hfuel hle hab hfin
    have hlt : st.iteration < maxToolIterations := by omega
    simp only [runLoopAux, if_pos hlt]
    by_cases hkN : st.iteration < N
    · obtain ⟨c, tcs, hdrv, htcs⟩ := hd st.iteration hkN
      rw [hdrv]
      simp only [htcs, if_true, ne_eq, not_false_eq_true]
      set st2 : LoopSt := { st with
        reqs := st.reqs ++ [(st.iteration, toolChoiceFor true st.iteration)],
        msgs := _, history := _, iteration := st.iteration + 1 } with hst2
      obtain ⟨g1, g2, g3, g4, g5⟩ := ih st2 (by simp [hst2]; omega)
        (by simp [hst2]; omega) (by simp [hst2, hab]) (by simp [hst2, hfin])
      refine ⟨g1, ?_, g3, g4, g5⟩
      rw [g2]
      simp only [hst2]
      rw [List.append_assoc]
      congr 1
      have hcnt : min maxToolIterations N +
          (if N < maxToolIterations then 1 else 0) - st.iteration =
          (min maxToolIterations N +
            (if N < maxToolIterations then 1 else 0) - (st.iteration + 1)) + 1 := by
        by_cases hN5 : N < maxToolIterations <;> simp [hN5] <;> omega
      rw [hcnt, List.range'_succ, List.map_cons]
      rfl
    · have hkeq : st.iteration = N := by omega
      obtain ⟨c, hdrv⟩ := hN (by omega)
      rw [← hkeq] at hdrv
      rw [hdrv]
      simp only [ne_eq, not_true_eq_false, if_neg, not_not]
      refine ⟨by simp; omega, ?_, rfl, by simp [hab], by simp; omega⟩
      congr 1
      have hcnt : min maxToolIterations N +
          (if N < maxToolIterations then 1 else 0) - st.iteration = 1 := by
        rw [if_pos (by omega)]
        omega
      rw [hcnt]
      rw [show List.range' st.iteration 1 = [st.iteration] from rfl]
      rfl

/-- Claim C8: with tools available and a driver producing at least one
tool call on each of its first `N` turns (and none on turn `N` when
`N < 5`), the loop's iteration counter ends at `min 5 N`; each request
`i` carries tool choice `auto` except when no tools are available or
`i = 4` (the cap is about to be reached), where it is `none`; requests
are issued exactly for iterations `0, …` and never beyond the cap; and
the distinguishable "Maximum tool calling iterations reached" error is
surfaced exactly when the cap binds. -/
theorem C8_iteration_cap (driver : Nat → StreamOutcome)
    (exec : ToolCall → ExecOut) (N : Nat) (history0 : List Msg)
    (u : List Char)
    (hd : ∀ i, i < N → ∃ c tcs, driver i = StreamOutcome.ok c tcs ∧ tcs ≠ [])
    (hN : N < maxToolIterations → ∃ c, driver N = StreamOutcome.ok c []) :
    (runLoop driver exec true history0 u).iteration =
      min maxToolIterations N ∧
    (runLoop driver exec true history0 u).reqs =
      (List.range (min maxToolIterations N +
        if N < maxToolIterations then 1 else 0)).map
        (fun i => (i, toolChoiceFor true i)) ∧
    (runLoop driver exec true history0 u).errors =
      (if maxToolIterations ≤ N then [maxIterMsg] else []) ∧
    (∀ q ∈ (runLoop driver exec true history0 u).reqs,
      q.1 < maxToolIterations) ∧
    (∀ (ht : Bool) (i : Nat), toolChoiceFor ht i =
      if ht = false ∨ maxToolIterations - 1 ≤ i then ToolChoice.choiceNone
      else ToolChoice.choiceAuto) := by
  obtain ⟨g1, g2, g3, g4, g5⟩ := runLoopAux_spec driver exec N hd hN
    maxToolIterations (initLoop history0 u) rfl (Nat.zero_le N) rfl rfl
  have hreqs : (runLoopAux driver exec true maxToolIterations
      (initLoop history0 u)).reqs =
      (List.range (min maxToolIterations N +
        if N < maxToolIterations then 1 else 0)).map
        (fun i => (i, toolChoiceFor true i)) := by
    rw [g2]
    show [] ++ _ = _
    rw [List.nil_append, List.range_eq_range']
    rfl
  have hrun : runLoop driver exec true history0 u =
      (if maxToolIterations ≤ (runLoopAux driver exec true maxToolIterations
          (initLoop history0 u)).iteration ∧
          (runLoopAux driver exec true maxToolIterations
            (initLoop history0 u)).finishedNoTools = false then
        { runLoopAux driver exec true maxToolIterations (initLoop history0 u)
          with errors := (runLoopAux driver exec true maxToolIterations
            (initLoop history0 u)).errors ++ [maxIterMsg] }
      else runLoopAux driver exec true maxToolIterations
        (initLoop history0 u)) := by
    unfold runLoop
    rw [if_neg (by rw [g4]; intro h; cases h)]
  by_cases hN5 : maxToolIterations ≤ N
  · have hcond : maxToolIterations ≤ (runLoopAux driver exec true
        maxToolIterations (initLoop history0 u)).iteration ∧
        (runLoopAux driver exec true maxToolIterations
          (initLoop history0 u)).finishedNoTools = false := by
      constructor
      · rw [g1]; omega
      · rcases h : (runLoopAux driver exec true maxToolIterations
          (initLoop history0 u)).finishedNoTools with _ | _
        · rfl
        · exfalso
          have := g5.mp h
          omega
    rw [hrun, if_pos hcond]
    refine ⟨by simp [g1], by simp [hreqs], ?_, ?_, ?_⟩
    · show _ ++ _ = _
      rw [g3, if_pos hN5]
      show [] ++ _ = _
      rw [List.nil_append]
    · intro q hq
      simp only at hq
      rw [hreqs] at hq
      obtain ⟨i, hi, rfl⟩ := List.mem_map.mp hq
      rw [List.mem_range] at hi
      show i < maxToolIterations
      by_cases h : N < maxToolIterations <;> simp [h] at hi <;> omega
    · intro ht i
      unfold toolChoiceFor
      cases ht <;> by_cases hi : maxToolIterations - 1 ≤ i <;>
        simp [hi, maxToolIterations]
  · rw [hrun, if_neg (by
      intro ⟨h1, h2⟩
      rw [g1] at h1
      omega)]
    refine ⟨g1, hreqs, ?_, ?_, ?_⟩
    · rw [g3, if_neg hN5]
      rfl
    · intro q hq
      rw [hreqs] at hq
      obtain ⟨i, hi, rfl⟩ := List.mem_map.mp hq
      rw [List.mem_range] at hi
      show i < maxToolIterations
      by_cases h : N < maxToolIterations <;> simp [h] at hi <;> omega
    · intro ht i
      unfold toolChoiceFor
      cases ht <;> by_cases hi : maxToolIterations - 1 ≤ i <;>
        simp [hi, maxToolIterations]

/-- Witness for C8: a driver producing one tool call on iterations 0 and
1 and a final answer on iteration 2. -/
theorem C8_iteration_cap_witness :
    (runLoop
      (fun i => if i < 2
        then StreamOutcome.ok "c".toList
          [⟨"id1".toList, "function".toList, "f".toList, emptyObjArgs⟩]
        else StreamOutcome.ok "done".toList [])
      (fun _ => ⟨"ok".toList, false, false⟩) true [] "hi".toList).iteration =
      min maxToolIterations 2 ∧
    (runLoop
      (fun i => if i < 2
        then StreamOutcome.ok "c".toList
          [⟨"id1".toList, "function".toList, "f".toList, emptyObjArgs⟩]
        else StreamOutcome.ok "done".toList [])
      (fun _ => ⟨"ok".toList, false, false⟩) true [] "hi".toList).errors =
      (if maxToolIterations ≤ 2 then [maxIterMsg] else []) := by
  have h := C8_iteration_cap
    (fun i => if i < 2
      then StreamOutcome.ok "c".toList
        [⟨"id1".toList, "function".toList, "f".toList, emptyObjArgs⟩]
      else StreamOutcome.ok "done".toList [])
    (fun _ => ⟨"ok".toList, false, false⟩) 2 [] "hi".toList
    (by
      intro i hi
      refine ⟨"c".toList,
        [⟨"id1".toList, "function".toList, "f".toList, emptyObjArgs⟩], ?_, ?_⟩
      · simp [hi]
      · simp)
    (by
      intro h2
      exact ⟨"done".toList, by simp⟩)
  exact ⟨h.1, h.2.2.1⟩

/-- History consistency: every assistant message carrying tool calls is
followed by a `tool`-role message answering each of its calls. -/
def historyConsistent : List Msg → Prop
  | [] => True
  | m :: rest =>
    (m.role = Role.assistant → ∀ tcs, m.toolCalls = some tcs →
      ∀ tc ∈ tcs, ∃ t ∈ rest, t.role = Role.tool ∧
        t.tool_call_id = some tc.id) ∧
    historyConsistent rest

theorem historyConsistent_append {a b : List Msg}
    (ha : historyConsistent a) (hb : historyConsistent b) :
    historyConsistent (a ++ b) := by
  induction a with
  | nil => exact hb
  | cons m rest ih =>
    obtain ⟨h1, h2⟩ := ha
    refine ⟨?_, ih h2⟩
    intro hrole tcs htcs tc htc
    obtain ⟨t, ht, hprop⟩ := h1 hrole tcs htcs tc htc
    exact ⟨t, List.mem_append.mpr (Or.inl ht), hprop⟩

theorem historyConsistent_allTool {l : List Msg}
    (h : ∀ m ∈ l, m.role = Role.tool) : historyConsistent l := by
  induction l with
  | nil => trivial
  | cons m rest ih =>
    refine ⟨?_, ih (fun m' hm' => h m' (List.mem_cons_of_mem _ hm'))⟩
    intro hrole
    rw [h m (List.mem_cons_self _ _)] at hrole
    cases hrole

theorem historyConsistent_block (content : List Char) (tcs : List ToolCall)
    (exec : ToolCall → ExecOut) :
    historyConsistent
      ((⟨Role.assistant, content, some tcs, none, none⟩ : Msg) ::
        (executeToolCalls exec tcs).map toolResultMsg) := by
  constructor
  · intro _ tcs' htcs' tc htc
    have htcs'' : tcs' = tcs := by
      injection htcs' with h
      exact h.symm
    subst htcs''
    refine ⟨toolResultMsg ⟨tc.id, tc.fnName, (exec tc).content,
      (exec tc).isError, (exec tc).hasUI⟩, ?_, ?_, ?_⟩
    · rw [executeToolCalls, List.map_map]
      exact List.mem_map.mpr ⟨tc, htc, rfl⟩
    · rfl
    · rfl
  · apply historyConsistent_allTool
    intro m hm
    rw [executeToolCalls, List.map_map] at hm
    obtain ⟨tc, -, rfl⟩ := List.mem_map.mp hm
    rfl

theorem runLoopAux_history (driver : Nat → StreamOutcome)
    (exec : ToolCall → ExecOut) (hasTools : Bool) :
    ∀ fuel st, historyConsistent st.history →
      historyConsistent (runLoopAux driver exec hasTools fuel st).history := by
  intro fuel
  induction fuel with
  | zero => intro st h; exact h
  | succ fuel ih =>
    intro st h
    unfold runLoopAux
    by_cases hlt : st.iteration < maxToolIterations
    · rw [if_pos hlt]
      cases hdrv : driver st.iteration with
      | err m => exact h
      | ok content toolCalls =>
        dsimp only
        by_cases htc : toolCalls ≠ []
        · rw [if_pos htc]
          apply ih
          show historyConsistent (st.history ++ _ :: _)
          exact historyConsistent_append h (historyConsistent_block _ _ _)
        · rw [if_neg htc]
          exact h
    · rw [if_neg hlt]
      exact h

theorem runLoopAux_no_abort_no_error (driver : Nat → StreamOutcome)
    (exec : ToolCall → ExecOut) (hasTools : Bool)
    (hok : ∀ i, ∃ c tcs, driver i = StreamOutcome.ok c tcs) :
    ∀ fuel st, st.aborted = false → (∀ m ∈ st.errors, m = maxIterMsg) →
      (runLoopAux driver exec hasTools fuel st).aborted = false ∧
      (∀ m ∈ (runLoopAux driver exec hasTools fuel st).errors,
        m = maxIterMsg) := by
  intro fuel
  induction fuel with
  | zero => intro st h1 h2; exact ⟨h1, h2⟩
  | succ fuel ih =>
    intro st h1 h2
    unfold runLoopAux
    by_cases hlt : st.iteration < maxToolIterations
    · rw [if_pos hlt]
      obtain ⟨c, tcs, hdrv⟩ := hok st.iteration
      rw [hdrv]
      dsimp only
      by_cases htc : tcs ≠ []
      · rw [if_pos htc]
        exact ih _ h1 h2
      · rw [if_neg htc]
        exact ⟨h1, h2⟩
    · rw [if_neg hlt]
      exact ⟨h1, h2⟩

/-- Claim C9 is false on the code as the spec's own executor contract
describes it: a failing tool call is reported as a ToolResult with
`isError: true`, the loop does *not* abort the turn and surfaces no
error — it issues the next request.  Concretely: iteration 0 produces
one tool call whose execution fails; the loop still runs iteration 1. -/
theorem C9_counterexample :
    ((runLoop
      (fun i => if i = 0
        then StreamOutcome.ok "x".toList
          [⟨"id1".toList, "function".toList, "f".toList, emptyObjArgs⟩]
        else StreamOutcome.ok "done".toList [])
      (fun _ => ⟨"tool failed".toList, true, false⟩)
      true [] "hi".toList).aborted = false) ∧
    ((runLoop
      (fun i => if i = 0
        then StreamOutcome.ok "x".toList
          [⟨"id1".toList, "function".toList, "f".toList, emptyObjArgs⟩]
        else StreamOutcome.ok "done".toList [])
      (fun _ => ⟨"tool failed".toList, true, false⟩)
      true [] "hi".toList).errors = []) ∧
    ((runLoop
      (fun i => if i = 0
        then StreamOutcome.ok "x".toList
          [⟨"id1".toList, "function".toList, "f".toList, emptyObjArgs⟩]
        else StreamOutcome.ok "done".toList [])
      (fun _ => ⟨"tool failed".toList, true, false⟩)
      true [] "hi".toList).iteration = 1) := by
  decide

/-- Amended claim C9: in every run — whatever the driver outcomes, the
executor, or tool availability — the persisted history stays consistent:
every assistant message carrying tool calls is followed by one
`tool`-role message per call, matched by `tool_call_id` (a failing tool
call yields an `isError` result that is appended like any other result).
Moreover, whenever no streaming (transport) error occurs, the loop never
aborts and surfaces no error besides the max-iterations message: only a
streaming error aborts the turn. -/
theorem C9_amended (driver : Nat → StreamOutcome)
    (exec : ToolCall → ExecOut) (hasTools : Bool) (history0 : List Msg)
    (u : List Char) (h0 : historyConsistent history0) :
    historyConsistent
      (runLoop driver exec hasTools history0 u).history ∧
    ((∀ i, ∃ c tcs, driver i = StreamOutcome.ok c tcs) →
      (runLoop driver exec hasTools history0 u).aborted = false ∧
      (∀ m ∈ (runLoop driver exec hasTools history0 u).errors,
        m = maxIterMsg)) := by
  have hinit : historyConsistent (initLoop history0 u).history := by
    apply historyConsistent_append h0
    refine ⟨?_, trivial⟩
    intro h
    cases h
  have hh := runLoopAux_history driver exec hasTools maxToolIterations
    (initLoop history0 u) hinit
  refine ⟨?_, ?_⟩
  · show historyConsistent (runLoop driver exec hasTools history0 u).history
    unfold runLoop
    dsimp only
    split
    · exact hh
    · split
      · exact hh
      · exact hh
  · intro hok
    have hna := runLoopAux_no_abort_no_error driver exec hasTools hok
      maxToolIterations (initLoop history0 u) rfl (by intro m hm; cases hm)
    refine ⟨?_, ?_⟩
    · show (runLoop driver exec hasTools history0 u).aborted = false
      unfold runLoop
      dsimp only
      split
      · exact hna.1
      · split
        · exact hna.1
        · exact hna.1
    · intro m hm
      unfold runLoop at hm
      dsimp only at hm
      split at hm
      · exact hna.2 m hm
      · split at hm
        · rcases List.mem_append.mp hm with h | h
          · exact hna.2 m h
          · simpa using h
        · exact hna.2 m hm

/-- Witness for C9's amended theorem: the failing-executor run of the
counterexample has consistent history and no abort; and a run whose
second request hits a transport error still has consistent history
(including the failed tool round persisted before the abort) while the
abort flag is set. -/
theorem C9_amended_witness :
    historyConsistent
      (runLoop
        (fun i => if i = 0
          then StreamOutcome.ok "x".toList
            [⟨"id1".toList, "function".toList, "f".toList, emptyObjArgs⟩]
          else StreamOutcome.ok "done".toList [])
        (fun _ => ⟨"tool failed".toList, true, false⟩)
        true [] "hi".toList).history ∧
    (runLoop
      (fun i => if i = 0
        then StreamOutcome.ok "x".toList
          [⟨"id1".toList, "function".toList, "f".toList, emptyObjArgs⟩]
        else StreamOutcome.ok "done".toList [])
      (fun _ => ⟨"tool failed".toList, true, false⟩)
      true [] "hi".toList).aborted = false ∧
    historyConsistent
      (runLoop
        (fun i => if i = 0
          then StreamOutcome.ok "x".toList
            [⟨"id1".toList, "function".toList, "f".toList, emptyObjArgs⟩]
          else StreamOutcome.err "boom".toList)
        (fun _ => ⟨"tool failed".toList, true, false⟩)
        true [] "hi".toList).history ∧
    (runLoop
      (fun i => if i = 0
        then StreamOutcome.ok "x".toList
          [⟨"id1".toList, "function".toList, "f".toList, emptyObjArgs⟩]
        else StreamOutcome.err "boom".toList)
      (fun _ => ⟨"tool failed".toList, true, false⟩)
      true [] "hi".toList).aborted = true := by
  have h := C9_amended
    (fun i => if i = 0
      then StreamOutcome.ok "x".toList
        [⟨"id1".toList, "function".toList, "f".toList, emptyObjArgs⟩]
      else StreamOutcome.ok "done".toList [])
    (fun _ => ⟨"tool failed".toList, true, false⟩)
    true [] "hi".toList trivial
  have herr := C9_amended
    (fun i => if i = 0
      then StreamOutcome.ok "x".toList
        [⟨"id1".toList, "function".toList, "f".toList, emptyObjArgs⟩]
      else StreamOutcome.err "boom".toList)
    (fun _ => ⟨"tool failed".toList, true, false⟩)
    true [] "hi".toList trivial
  refine ⟨h.1, ?_, herr.1, by decide⟩
  refine (h.2 ?_).1
  intro i
  by_cases hi : i = 0
  · exact ⟨"x".toList,
      [⟨"id1".toList, "function".toList, "f".toList, emptyObjArgs⟩],
      by simp [hi]⟩
  · exact ⟨"done".toList, [], by simp [hi]⟩

/-! ## Base-URL normalization (C10)

`streamChatCompletion` normalizes its `baseUrl`:
`baseUrl.replace(/\/+$/, '').replace(/\/api$/i, '')`, then appends
`/api/chat/completions`. -/

/-- Number of trailing `'/'` characters. -/
def trailingSlashes (u : List Char) : Nat :=
  (u.reverse.takeWhile (fun c => c = '/')).length

/-- `baseUrl.replace(/\/+$/, '')`: remove all trailing slashes. -/
def stripTrailingSlashes (u : List Char) : List Char :=
  u.take (u.length - trailingSlashes u)

/-- `.replace(/\/api$/i, '')`: remove one trailing case-insensitive
`/api` segment. -/
def stripApiSuffix (u : List Char) : List Char :=
  if (u.drop (u.length - 4)).map Char.toLower = "/api".toList then
    u.take (u.length - 4)
  else u

/-- The normalized base URL. -/
def normalizedBaseUrl (u : List Char) : List Char :=
  stripApiSuffix (stripTrailingSlashes u)

/-- The fixed path appended to every request. -/
def chatCompletionsPath : List Char := "/api/chat/completions".toList

/-- The URL the POST is issued to. -/
def requestUrl (u : List Char) : List Char :=
  normalizedBaseUrl u ++ chatCompletionsPath

/-- Occurrences (at any position, overlapping counted) of `pat` in `s`. -/
def countOccur (pat : List Char) : List Char → Nat
  | [] => 0
  | c :: cs =>
    (if pat.isPrefixOf (c :: cs) then 1 else 0) + countOccur pat cs

/-- Claim C10's "never duplicated" conjunct is false in general: a
`baseUrl` that itself ends in the full path yields the path twice. -/
theorem C10_counterexample :
    countOccur chatCompletionsPath
      (requestUrl "http://h/api/chat/completions".toList) = 2 := by decide

theorem stripTrailingSlashes_eq_take (u : List Char) :
    ∃ k, stripTrailingSlashes u = u.take k :=
  ⟨_, rfl⟩

theorem stripApiSuffix_eq_take (u : List Char) :
    ∃ k, stripApiSuffix u = u.take k := by
  unfold stripApiSuffix
  split
  · exact ⟨_, rfl⟩
  · exact ⟨u.length, by rw [List.take_length]⟩

theorem countOccur_eq_zero_iff (pat : List Char) (s : List Char) :
    countOccur pat s = 0 ↔ ∀ j, ¬pat.isPrefixOf (s.drop j) ∨ s.drop j = [] := by
  induction s with
  | nil =>
    constructor
    · intro _ j
      exact Or.inr (List.drop_nil)
    · intro _
      rfl
  | cons c cs ih =>
    unfold countOccur
    constructor
    · intro h j
      have h1 : (if pat.isPrefixOf (c :: cs) then 1 else 0) = 0 ∧
          countOccur pat cs = 0 := by
        constructor <;> omega
      cases j with
      | zero =>
        left
        intro hp
        rw [List.drop_zero] at hp
        rw [if_pos hp] at h1
        exact absurd h1.1 one_ne_zero
      | succ j' =>
        have := (ih.mp h1.2) j'
        simpa using this
    · intro h
      have h0 := h 0
      simp only [List.drop_zero] at h0
      have hhead : (if pat.isPrefixOf (c :: cs) then 1 else 0) = 0 := by
        rcases h0 with h0 | h0
        · rw [if_neg h0]
        · cases h0
      have htail : countOccur pat cs = 0 := by
        apply ih.mpr
        intro j
        have := h (j + 1)
        simpa using this
      omega

theorem isPrefixOf_length_le {P s : List Char} (h : P.isPrefixOf s = true) :
    P.length ≤ s.length :=
  (List.isPrefixOf_iff_prefix.mp h).length_le

theorem countOccur_short {P s : List Char} (h : s.length < P.length) :
    countOccur P s = 0 := by
  induction s with
  | nil => rfl
  | cons c cs ih =>
    unfold countOccur
    rw [if_neg, ih (by simp at h ⊢; omega)]
    intro hp
    have := isPrefixOf_length_le hp
    omega

theorem countOccur_take_zero {P u : List Char} (hP : P ≠ [])
    (h : countOccur P u = 0) (k : Nat) : countOccur P (u.take k) = 0 := by
  rw [countOccur_eq_zero_iff] at h ⊢
  intro j
  rcases h j with h | h
  · by_cases hnil : (u.take k).drop j = []
    · exact Or.inr hnil
    · left
      intro hp
      apply h
      have hdt : (u.take k).drop j = (u.drop j).take (k - j) := by
        rw [List.drop_take]
      rw [hdt] at hp
      have hpre : P <+: (u.drop j).take (k - j) :=
        List.isPrefixOf_iff_prefix.mp hp
      have : P <+: u.drop j := hpre.trans (List.take_prefix _ _)
      exact List.isPrefixOf_iff_prefix.mpr this
  · right
    rw [List.drop_take, h]
    simp

/-- The appended path has no non-trivial self-overlap: no proper suffix
of it is one of its prefixes. -/
theorem path_no_self_overlap :
    ∀ k, k < chatCompletionsPath.length → 0 < k →
      ¬(chatCompletionsPath.drop k).isPrefixOf chatCompletionsPath = true := by
  decide

theorem countOccur_append_self {P : List Char} (hP : P ≠ [])
    (hov : ∀ k, k < P.length → 0 < k →
      ¬(P.drop k).isPrefixOf P = true) :
    ∀ b, countOccur P b = 0 → countOccur P (b ++ P) = 1 := by
  intro b
  induction b with
  | nil =>
    intro _
    rw [List.nil_append]
    obtain ⟨c, cs, rfl⟩ := List.exists_cons_of_ne_nil hP
    unfold countOccur
    rw [if_pos (List.isPrefixOf_iff_prefix.mpr (List.prefix_refl _)),
      countOccur_short (by simp)]
  | cons c b' ih =>
    intro hb
    have hb' : countOccur P b' = 0 ∧
        (if P.isPrefixOf (c :: b') then 1 else 0) = 0 := by
      unfold countOccur at hb
      constructor <;> omega
    rw [List.cons_append]
    unfold countOccur
    rw [ih hb'.1, if_neg]
    intro hp
    by_cases hlen : P.length ≤ (c :: b').length
    · have hpre : P <+: (c :: b') ++ P := List.isPrefixOf_iff_prefix.mp hp
      rw [List.prefix_iff_eq_take] at hpre
      rw [List.take_append_eq_append_take,
        Nat.sub_eq_zero_of_le hlen, List.take_zero, List.append_nil] at hpre
      have : P.isPrefixOf (c :: b') = true := by
        apply List.isPrefixOf_iff_prefix.mpr
        rw [List.prefix_iff_eq_take]
        exact hpre
      rw [if_pos this] at hb'
      exact absurd hb'.2 one_ne_zero
    · push_neg at hlen
      have hpre : P <+: (c :: b') ++ P := List.isPrefixOf_iff_prefix.mp hp
      rw [List.prefix_iff_eq_take] at hpre
      have hdp : P.drop (c :: b').length = P.take (P.length - (c :: b').length) := by
        conv_lhs => rw [hpre]
        rw [List.drop_take, List.drop_append_eq_append_drop,
          List.drop_of_length_le (le_refl _), Nat.sub_self, List.drop_zero,
          List.nil_append]
      have hover : (P.drop (c :: b').length).isPrefixOf P = true := by
        apply List.isPrefixOf_iff_prefix.mpr
        rw [hdp]
        exact List.take_prefix _ _
      exact hov (c :: b').length (by omega) (by simp) hover

theorem takeWhile_replicate_append (k : Nat) (x : List Char) :
    (List.replicate k '/' ++ x).takeWhile (fun c => c = '/') =
      List.replicate k '/' ++ x.takeWhile (fun c => c = '/') := by
  induction k with
  | zero => simp
  | succ k ih =>
    rw [List.replicate_succ, List.cons_append, List.takeWhile_cons_of_pos
      (by simp), ih, List.cons_append]

theorem trailingSlashes_append_slashes (u : List Char) (k : Nat) :
    trailingSlashes (u ++ List.replicate k '/') = k + trailingSlashes u := by
  unfold trailingSlashes
  rw [List.reverse_append, List.reverse_replicate, takeWhile_replicate_append,
    List.length_append, List.length_replicate]

theorem length_takeWhile_le' (p : Char → Bool) (l : List Char) :
    (l.takeWhile p).length ≤ l.length := by
  induction l with
  | nil => exact le_refl _
  | cons c cs ih =>
    rw [List.takeWhile_cons]
    split
    · simpa using ih
    · simp

theorem trailingSlashes_le (u : List Char) : trailingSlashes u ≤ u.length := by
  unfold trailingSlashes
  have := length_takeWhile_le' (fun c => c = '/') u.reverse
  simpa using this

theorem stripTrailingSlashes_append_slashes (u : List Char) (k : Nat) :
    stripTrailingSlashes (u ++ List.replicate k '/') =
      stripTrailingSlashes u := by
  have htle : trailingSlashes u ≤ u.length := trailingSlashes_le u
  unfold stripTrailingSlashes
  rw [trailingSlashes_append_slashes, List.length_append,
    List.length_replicate]
  have hn : u.length + k - (k + trailingSlashes u) =
      u.length - trailingSlashes u := by omega
  rw [hn, List.take_append_eq_append_take,
    Nat.sub_eq_zero_of_le
      (by omega : u.length - trailingSlashes u ≤ u.length),
    List.take_zero, List.append_nil]

theorem stripTrailingSlashes_spec (u : List Char) :
    u = stripTrailingSlashes u ++ List.replicate (trailingSlashes u) '/' := by
  have htle := trailingSlashes_le u
  have hdrop : u.drop (u.length - trailingSlashes u) =
      List.replicate (trailingSlashes u) '/' := by
    have h1 : (u.drop (u.length - trailingSlashes u)).reverse =
        u.reverse.take (u.length - (u.length - trailingSlashes u)) :=
      List.reverse_drop
    rw [show u.length - (u.length - trailingSlashes u) = trailingSlashes u by
      omega] at h1
    have h2 : u.reverse.take (trailingSlashes u) =
        u.reverse.takeWhile (fun c => c = '/') := by
      have hp := List.takeWhile_prefix (l := u.reverse) (fun c => c = '/')
      rw [List.prefix_iff_eq_take] at hp
      exact hp.symm
    have h3 : u.reverse.takeWhile (fun c => c = '/') =
        List.replicate (trailingSlashes u) '/' := by
      rw [List.eq_replicate_iff]
      refine ⟨rfl, fun b hb => ?_⟩
      simpa using List.mem_takeWhile_imp hb
    have h4 := congrArg List.reverse (h1.trans (h2.trans h3))
    rw [List.reverse_reverse, List.reverse_replicate] at h4
    exact h4
  conv_lhs => rw [← List.take_append_drop (u.length - trailingSlashes u) u]
  rw [hdrop]
  rfl

theorem trailingSlashes_append_api (u : List Char) :
    trailingSlashes (u ++ "/api".toList) = 0 := by
  unfold trailingSlashes
  rw [List.reverse_append,
    show "/api".toList.reverse = 'i' :: ['p', 'a', '/'] from rfl,
    List.cons_append, List.takeWhile_cons_of_neg (by decide)]
  rfl

theorem stripTrailingSlashes_append_api (u : List Char) :
    stripTrailingSlashes (u ++ "/api".toList) = u ++ "/api".toList := by
  unfold stripTrailingSlashes
  rw [trailingSlashes_append_api, Nat.sub_zero, List.take_length]

theorem stripApiSuffix_append_api (u : List Char) :
    stripApiSuffix (u ++ "/api".toList) = u := by
  unfold stripApiSuffix
  rw [List.length_append,
    show ("/api".toList).length = 4 from rfl,
    show u.length + 4 - 4 = u.length by omega,
    List.drop_left, List.take_left]
  rw [if_pos (by decide)]

/-- Amended claim C10: the request URL is the normalized base (all
trailing slashes stripped, then one trailing case-insensitive `/api`
segment) followed by `/api/chat/completions`; bases differing only by
trailing slashes or one trailing `/api` segment give the identical URL;
and the path appears exactly once in the URL **provided the base URL
does not itself contain it** (a base ending in the full path duplicates
it). -/
theorem C10_amended :
    (∀ u, u = stripTrailingSlashes u ++
      List.replicate (trailingSlashes u) '/') ∧
    (∀ (u : List Char) (k : Nat),
      requestUrl (u ++ List.replicate k '/') = requestUrl u) ∧
    (∀ u, stripTrailingSlashes u = u → stripApiSuffix u = u →
      requestUrl (u ++ "/api".toList) = requestUrl u) ∧
    (requestUrl "http://h".toList = requestUrl "http://h/".toList ∧
     requestUrl "http://h".toList = requestUrl "http://h/api".toList ∧
     requestUrl "http://h".toList = requestUrl "http://h/api/".toList ∧
     requestUrl "http://h".toList = requestUrl "http://h///".toList) ∧
    (∀ u, countOccur chatCompletionsPath u = 0 →
      countOccur chatCompletionsPath (requestUrl u) = 1) := by
  refine ⟨stripTrailingSlashes_spec, ?_, ?_, ?_, ?_⟩
  · intro u k
    unfold requestUrl normalizedBaseUrl
    rw [stripTrailingSlashes_append_slashes]
  · intro u hns hna
    unfold requestUrl normalizedBaseUrl
    rw [stripTrailingSlashes_append_api, stripApiSuffix_append_api, hns, hna]
  · exact ⟨by decide, by decide, by decide, by decide⟩
  · intro u hocc
    have hPne : chatCompletionsPath ≠ [] := by decide
    have h1 : countOccur chatCompletionsPath (stripTrailingSlashes u) = 0 :=
      countOccur_take_zero hPne hocc _
    have h2 : countOccur chatCompletionsPath (normalizedBaseUrl u) = 0 := by
      obtain ⟨k, hk⟩ := stripApiSuffix_eq_take (stripTrailingSlashes u)
      unfold normalizedBaseUrl
      rw [hk]
      exact countOccur_take_zero hPne h1 k
    exact countOccur_append_self hPne path_no_self_overlap _ h2

/-- Witness for C10's amended theorem at concrete base URLs. -/
theorem C10_amended_witness :
    requestUrl ("http://h".toList ++ List.replicate 2 '/') =
      requestUrl "http://h".toList ∧
    requestUrl ("http://h".toList ++ "/api".toList) =
      requestUrl "http://h".toList ∧
    countOccur chatCompletionsPath (requestUrl "http://h".toList) = 1 := by
  refine ⟨C10_amended.2.1 "http://h".toList 2, ?_, ?_⟩
  · exact C10_amended.2.2.1 "http://h".toList (by decide) (by decide)
  · exact C10_amended.2.2.2.2 "http://h".toList (by decide)

/-! ## Chunking invariance of the splitter (amended C1/C2)

The splitter's output is independent of chunk boundaries for inputs
whose markers are *well-sequenced*: scanning left to right, in content
mode the next marker (if any) is a start marker, and each think block is
closed before the next marker.  (The counterexamples above show the
output is chunking-dependent for an end marker with no earlier start
marker.) -/

/-- Fuelled well-sequencing check.  In think mode (`ib = true`) the
scanner only looks for the closing marker; in content mode a closing
marker occurring before any opening marker is the ill-sequenced
("implicit think") case. -/
def wellSeqF : Nat → Bool → List Char → Bool
  | 0, _, _ => true
  | fuel + 1, true, X =>
    match findClose X with
    | none => true
    | some (i, l) => wellSeqF fuel false (X.drop (i + l))
  | fuel + 1, false, X =>
    match findOpen X, findClose X with
    | none, none => true
    | some (io, lo), none => wellSeqF fuel true (X.drop (io + lo))
    | some (io, lo), some (ic, _) =>
      decide (io < ic) && wellSeqF fuel true (X.drop (io + lo))
    | none, some _ => false

/-- Markers of `X` are well-sequenced for a scan starting in mode `ib`. -/
def WellSeq (ib : Bool) (X : List Char) : Prop :=
  wellSeqF X.length ib X = true

theorem wellSeqF_congr {a b : Nat} {c : Bool} {X : List Char}
    (h1 : X.length ≤ a) (h2 : X.length ≤ b) :
    wellSeqF a c X = wellSeqF b c X := by
  induction a generalizing b c X with
  | zero =>
    have hX : X = [] := List.length_eq_zero.mp (Nat.le_zero.mp h1)
    subst hX
    cases b with
    | zero => rfl
    | succ g2 => cases c <;> rfl
  | succ g1 ih =>
    cases b with
    | zero =>
      have hX : X = [] := List.length_eq_zero.mp (Nat.le_zero.mp h2)
      subst hX
      cases c <;> rfl
    | succ g2 =>
      cases c with
      | true =>
        show (match findClose X with
          | none => true
          | some (i, l) => wellSeqF g1 false (X.drop (i + l))) =
          (match findClose X with
          | none => true
          | some (i, l) => wellSeqF g2 false (X.drop (i + l)))
        cases hc : findClose X with
        | none => rfl
        | some p =>
          obtain ⟨i, l⟩ := p
          obtain ⟨hl8, hil⟩ := findClose_bound hc
          exact ih (by rw [List.length_drop]; omega)
            (by rw [List.length_drop]; omega)
      | false =>
        show (match findOpen X, findClose X with
          | none, none => true
          | some (io, lo), none => wellSeqF g1 true (X.drop (io + lo))
          | some (io, lo), some (ic, _) =>
            decide (io < ic) && wellSeqF g1 true (X.drop (io + lo))
          | none, some _ => false) =
          (match findOpen X, findClose X with
          | none, none => true
          | some (io, lo), none => wellSeqF g2 true (X.drop (io + lo))
          | some (io, lo), some (ic, _) =>
            decide (io < ic) && wellSeqF g2 true (X.drop (io + lo))
          | none, some _ => false)
        cases ho : findOpen X with
        | none => cases hc : findClose X <;> rfl
        | some p =>
          obtain ⟨io, lo⟩ := p
          obtain ⟨hl7, hiol⟩ := findOpen_bound ho
          have hrec := ih (b := g2) (c := true) (X := X.drop (io + lo))
            (by rw [List.length_drop]; omega) (by rw [List.length_drop]; omega)
          cases hc : findClose X with
          | none => exact hrec
          | some q =>
            obtain ⟨ic, lc⟩ := q
            dsimp only
            rw [hrec]

theorem WellSeq_think_none {X : List Char} (h : findClose X = none) :
    WellSeq true X := by
  unfold WellSeq
  cases hX : X.length with
  | zero => rfl
  | succ n =>
    show (match findClose X with
      | none => true
      | some (i, l) => wellSeqF n false (X.drop (i + l))) = true
    rw [h]

theorem WellSeq_think_some {X : List Char} {i l : Nat}
    (h : findClose X = some (i, l)) :
    WellSeq true X ↔ WellSeq false (X.drop (i + l)) := by
  obtain ⟨hl8, hil⟩ := findClose_bound h
  unfold WellSeq
  cases hX : X.length with
  | zero =>
    exfalso
    omega
  | succ n =>
    show (match findClose X with
      | none => true
      | some (i, l) => wellSeqF n false (X.drop (i + l))) = true ↔ _
    rw [h]
    dsimp only
    rw [wellSeqF_congr (b := (X.drop (i + l)).length)
      (by rw [List.length_drop]; omega) (le_refl _)]

theorem WellSeq_content_none {X : List Char} (ho : findOpen X = none)
    (hc : findClose X = none) : WellSeq false X := by
  unfold WellSeq
  cases hX : X.length with
  | zero => rfl
  | succ n =>
    show (match findOpen X, findClose X with
      | none, none => true
      | some (io, lo), none => wellSeqF n true (X.drop (io + lo))
      | some (io, lo), some (ic, _) =>
        decide (io < ic) && wellSeqF n true (X.drop (io + lo))
      | none, some _ => false) = true
    rw [ho, hc]

theorem WellSeq_content_open_none {X : List Char} {io lo : Nat}
    (ho : findOpen X = some (io, lo)) (hc : findClose X = none) :
    WellSeq false X ↔ WellSeq true (X.drop (io + lo)) := by
  obtain ⟨hl7, hiol⟩ := findOpen_bound ho
  unfold WellSeq
  cases hX : X.length with
  | zero => exfalso; omega
  | succ n =>
    show (match findOpen X, findClose X with
      | none, none => true
      | some (io, lo), none => wellSeqF n true (X.drop (io + lo))
      | some (io, lo), some (ic, _) =>
        decide (io < ic) && wellSeqF n true (X.drop (io + lo))
      | none, some _ => false) = true ↔ _
    rw [ho, hc]
    dsimp only
    rw [wellSeqF_congr (b := (X.drop (io + lo)).length)
      (by rw [List.length_drop]; omega) (le_refl _)]

theorem WellSeq_content_open_close {X : List Char} {io lo ic lc : Nat}
    (ho : findOpen X = some (io, lo)) (hc : findClose X = some (ic, lc)) :
    WellSeq false X ↔ io < ic ∧ WellSeq true (X.drop (io + lo)) := by
  obtain ⟨hl7, hiol⟩ := findOpen_bound ho
  unfold WellSeq
  cases hX : X.length with
  | zero => exfalso; omega
  | succ n =>
    show (match findOpen X, findClose X with
      | none, none => true
      | some (io, lo), none => wellSeqF n true (X.drop (io + lo))
      | some (io, lo), some (ic, _) =>
        decide (io < ic) && wellSeqF n true (X.drop (io + lo))
      | none, some _ => false) = true ↔ _
    rw [ho, hc]
    dsimp only
    rw [wellSeqF_congr (b := (X.drop (io + lo)).length)
      (by rw [List.length_drop]; omega) (le_refl _)]
    rw [Bool.and_eq_true, decide_eq_true_iff]

theorem WellSeq_content_close_noopen {X : List Char} {ic lc : Nat}
    (ho : findOpen X = none) (hc : findClose X = some (ic, lc)) :
    ¬WellSeq false X := by
  obtain ⟨hl8, hil⟩ := findClose_bound hc
  unfold WellSeq
  cases hX : X.length with
  | zero => exfalso; omega
  | succ n =>
    show ¬((match findOpen X, findClose X with
      | none, none => true
      | some (io, lo), none => wellSeqF n true (X.drop (io + lo))
      | some (io, lo), some (ic, _) =>
        decide (io < ic) && wellSeqF n true (X.drop (io + lo))
      | none, some _ => false) = true)
    rw [ho, hc]
    simp

/-! ### Tag geometry: markers start with `<`, contain no interior `<`,
and are therefore pairwise non-overlapping; the leftmost match is stable
under appending input. -/

theorem matchOpen_inv {s : List Char} {l : Nat} (h : matchOpen s = some l) :
    (l = 10 ∧ ciPrefix "<thinking>".toList s = true) ∨
    (l = 7 ∧ ciPrefix "<think>".toList s = true ∧
      ciPrefix "<thinking>".toList s = false) := by
  unfold matchOpen at h
  split at h
  · cases h
    exact Or.inl ⟨rfl, by assumption⟩
  · split at h
    · cases h
      rename_i h1 h2
      exact Or.inr ⟨rfl, h2, by simpa using h1⟩
    · cases h

theorem matchClose_inv {s : List Char} {l : Nat} (h : matchClose s = some l) :
    (l = 11 ∧ ciPrefix "</thinking>".toList s = true) ∨
    (l = 8 ∧ ciPrefix "</think>".toList s = true ∧
      ciPrefix "</thinking>".toList s = false) := by
  unfold matchClose at h
  split at h
  · cases h
    exact Or.inl ⟨rfl, by assumption⟩
  · split at h
    · cases h
      rename_i h1 h2
      exact Or.inr ⟨rfl, h2, by simpa using h1⟩
    · cases h

theorem matchOpen_head {s : List Char} {l : Nat} (h : matchOpen s = some l) :
    ∃ h0 : 0 < s.length, Char.toLower s[0] = '<' := by
  rcases matchOpen_inv h with ⟨-, hp⟩ | ⟨-, hp, -⟩ <;>
    · obtain ⟨hk, he⟩ := ciPrefix_getElem hp (k := 0) (by decide)
      exact ⟨hk, he⟩

theorem matchClose_head {s : List Char} {l : Nat} (h : matchClose s = some l) :
    ∃ h0 : 0 < s.length, Char.toLower s[0] = '<' := by
  rcases matchClose_inv h with ⟨-, hp⟩ | ⟨-, hp, -⟩ <;>
    · obtain ⟨hk, he⟩ := ciPrefix_getElem hp (k := 0) (by decide)
      exact ⟨hk, he⟩

theorem matchOpen_interior {s : List Char} {l k : Nat}
    (h : matchOpen s = some l) (h1 : 1 ≤ k) (h2 : k < l) :
    ∃ hk : k < s.length, Char.toLower s[k] ≠ '<' := by
  rcases matchOpen_inv h with ⟨rfl, hp⟩ | ⟨rfl, hp, -⟩
  · obtain ⟨hk, he⟩ := ciPrefix_getElem hp (k := k)
      (by simpa using h2)
    refine ⟨hk, ?_⟩
    rw [he]
    have : ∀ j, (hj : j < ("<thinking>".toList).length) → 1 ≤ j →
        ("<thinking>".toList)[j] ≠ '<' := by decide
    exact this k (by simpa using h2) h1
  · obtain ⟨hk, he⟩ := ciPrefix_getElem hp (k := k)
      (by simpa using h2)
    refine ⟨hk, ?_⟩
    rw [he]
    have : ∀ j, (hj : j < ("<think>".toList).length) → 1 ≤ j →
        ("<think>".toList)[j] ≠ '<' := by decide
    exact this k (by simpa using h2) h1

theorem matchClose_interior {s : List Char} {l k : Nat}
    (h : matchClose s = some l) (h1 : 1 ≤ k) (h2 : k < l) :
    ∃ hk : k < s.length, Char.toLower s[k] ≠ '<' := by
  rcases matchClose_inv h with ⟨rfl, hp⟩ | ⟨rfl, hp, -⟩
  · obtain ⟨hk, he⟩ := ciPrefix_getElem hp (k := k)
      (by simpa using h2)
    refine ⟨hk, ?_⟩
    rw [he]
    have : ∀ j, (hj : j < ("</thinking>".toList).length) → 1 ≤ j →
        ("</thinking>".toList)[j] ≠ '<' := by decide
    exact this k (by simpa using h2) h1
  · obtain ⟨hk, he⟩ := ciPrefix_getElem hp (k := k)
      (by simpa using h2)
    refine ⟨hk, ?_⟩
    rw [he]
    have : ∀ j, (hj : j < ("</think>".toList).length) → 1 ≤ j →
        ("</think>".toList)[j] ≠ '<' := by decide
    exact this k (by simpa using h2) h1

theorem getElem_drop' (s : List Char) (n k : Nat) (hk : k < (s.drop n).length)
    (hk2 : n + k < s.length) : (s.drop n)[k] = s[n + k] := by
  rw [List.getElem_drop]

/-- Two marker matches at different positions cannot overlap: the later
one starts with `<`, but the earlier one has no interior `<`. -/
theorem tag_no_overlap {s : List Char} {i' i l' l : Nat}
    {m' m : List Char → Option Nat}
    (hint : ∀ (t : List Char) (lt kt : Nat), m' t = some lt → 1 ≤ kt → kt < lt →
      ∃ hk : kt < t.length, Char.toLower t[kt] ≠ '<')
    (hhead : ∀ (t : List Char) (lt : Nat), m t = some lt →
      ∃ h0 : 0 < t.length, Char.toLower t[0] = '<')
    (h' : m' (s.drop i') = some l') (h : m (s.drop i) = some l)
    (hlt : i' < i) (hov : i < i' + l') : False := by
  obtain ⟨hk, hne⟩ := hint (s.drop i') l' (i - i') h' (by omega) (by omega)
  obtain ⟨h0, heq⟩ := hhead (s.drop i) l h
  have his : i < s.length := by
    have h0' := h0
    rw [List.length_drop] at h0'
    omega
  have hk' := hk
  rw [List.length_drop] at hk'
  rw [getElem_drop' s i' (i - i') hk (by omega)] at hne
  rw [getElem_drop' s i 0 h0 (by omega)] at heq
  simp only [show i' + (i - i') = i from by omega] at hne
  simp only [Nat.add_zero] at heq
  exact hne heq

theorem ciPrefix_char_ne {pat1 pat2 s : List Char} {k : Nat}
    (h1 : ciPrefix pat1 s = true) (h2 : ciPrefix pat2 s = true)
    (hk1 : k < pat1.length) (hk2 : k < pat2.length)
    (hne : pat1[k] ≠ pat2[k]) : False := by
  obtain ⟨ha, he1⟩ := ciPrefix_getElem h1 hk1
  obtain ⟨hb, he2⟩ := ciPrefix_getElem h2 hk2
  rw [he1] at he2
  exact hne he2

theorem matchOpen_append_some {s t : List Char} {l : Nat}
    (h : matchOpen s = some l) : matchOpen (s ++ t) = some l := by
  rcases matchOpen_inv h with ⟨rfl, hp⟩ | ⟨rfl, hp, hnp⟩
  · unfold matchOpen
    rw [if_pos (ciPrefix_append hp)]
  · unfold matchOpen
    rw [if_neg, if_pos (ciPrefix_append hp)]
    intro hcontra
    have h7 : ciPrefix "<think>".toList (s ++ t) = true := ciPrefix_append hp
    exact ciPrefix_char_ne (k := 6) h7 hcontra (by decide) (by decide) (by decide)

theorem matchClose_append_some {s t : List Char} {l : Nat}
    (h : matchClose s = some l) : matchClose (s ++ t) = some l := by
  rcases matchClose_inv h with ⟨rfl, hp⟩ | ⟨rfl, hp, hnp⟩
  · unfold matchClose
    rw [if_pos (ciPrefix_append hp)]
  · unfold matchClose
    rw [if_neg, if_pos (ciPrefix_append hp)]
    intro hcontra
    have h8 : ciPrefix "</think>".toList (s ++ t) = true := ciPrefix_append hp
    exact ciPrefix_char_ne (k := 7) h8 hcontra (by decide) (by decide) (by decide)

theorem matchOpen_of_append {s t : List Char} {l : Nat}
    (h : matchOpen (s ++ t) = some l) (hl : l ≤ s.length) :
    matchOpen s = some l := by
  rcases matchOpen_inv h with ⟨rfl, hp⟩ | ⟨rfl, hp, hnp⟩
  · unfold matchOpen
    rw [if_pos (ciPrefix_of_append hp (by simpa using hl))]
  · unfold matchOpen
    rw [if_neg, if_pos (ciPrefix_of_append hp (by simpa using hl))]
    intro hcontra
    exact absurd (ciPrefix_append (t := t) hcontra) (by simpa using hnp)

theorem matchClose_of_append {s t : List Char} {l : Nat}
    (h : matchClose (s ++ t) = some l) (hl : l ≤ s.length) :
    matchClose s = some l := by
  rcases matchClose_inv h with ⟨rfl, hp⟩ | ⟨rfl, hp, hnp⟩
  · unfold matchClose
    rw [if_pos (ciPrefix_of_append hp (by simpa using hl))]
  · unfold matchClose
    rw [if_neg, if_pos (ciPrefix_of_append hp (by simpa using hl))]
    intro hcontra
    exact absurd (ciPrefix_append (t := t) hcontra) (by simpa using hnp)

theorem drop_append_of_le {B v : List Char} {i : Nat} (h : i ≤ B.length) :
    (B ++ v).drop i = B.drop i ++ v := by
  rw [List.drop_append_eq_append_drop, Nat.sub_eq_zero_of_le h, List.drop_zero]

theorem findTag_eq_none_of {m : List Char → Option Nat} {X : List Char}
    (h : ∀ j, m (X.drop j) = none) : findTag m X = none := by
  cases hf : findTag m X with
  | none => rfl
  | some p =>
    obtain ⟨i, l⟩ := p
    obtain ⟨h1, -⟩ := findTag_spec hf
    rw [h i] at h1
    cases h1

/-- The leftmost close marker is unchanged by appending further input. -/
theorem findClose_append {B v : List Char} {i l : Nat}
    (h : findClose B = some (i, l)) : findClose (B ++ v) = some (i, l) := by
  obtain ⟨hm, hnone⟩ := findTag_spec h
  obtain ⟨hl8, hil⟩ := findClose_bound h
  apply findTag_of_spec matchClose_nil
  · rw [drop_append_of_le (by omega)]
    exact matchClose_append_some hm
  · intro j hj
    cases hs : matchClose ((B ++ v).drop j) with
    | none => rfl
    | some l2 =>
      exfalso
      obtain ⟨-, hjl2⟩ := matchClose_length hs
      rw [List.length_drop, List.length_append] at hjl2
      by_cases hin : j + l2 ≤ B.length
      · have : matchClose (B.drop j) = some l2 := by
          apply matchClose_of_append (t := v)
          · rwa [← drop_append_of_le (by omega)]
          · rw [List.length_drop]; omega
        rw [hnone j hj] at this
        cases this
      · have hstab : matchClose ((B ++ v).drop i) = some l := by
          rw [drop_append_of_le (by omega)]
          exact matchClose_append_some hm
        exact tag_no_overlap
          (fun t lt kt ht h1 h2 => matchClose_interior ht h1 h2)
          (fun t lt ht => matchClose_head ht)
          hs hstab hj (by omega)

/-- The leftmost open marker is unchanged by appending further input. -/
theorem findOpen_append {B v : List Char} {i l : Nat}
    (h : findOpen B = some (i, l)) : findOpen (B ++ v) = some (i, l) := by
  obtain ⟨hm, hnone⟩ := findTag_spec h
  obtain ⟨hl7, hil⟩ := findOpen_bound h
  apply findTag_of_spec matchOpen_nil
  · rw [drop_append_of_le (by omega)]
    exact matchOpen_append_some hm
  · intro j hj
    cases hs : matchOpen ((B ++ v).drop j) with
    | none => rfl
    | some l2 =>
      exfalso
      obtain ⟨-, hjl2⟩ := matchOpen_length hs
      rw [List.length_drop, List.length_append] at hjl2
      by_cases hin : j + l2 ≤ B.length
      · have : matchOpen (B.drop j) = some l2 := by
          apply matchOpen_of_append (t := v)
          · rwa [← drop_append_of_le (by omega)]
          · rw [List.length_drop]; omega
        rw [hnone j hj] at this
        cases this
      · have hstab : matchOpen ((B ++ v).drop i) = some l := by
          rw [drop_append_of_le (by omega)]
          exact matchOpen_append_some hm
        exact tag_no_overlap
          (fun t lt kt ht h1 h2 => matchOpen_interior ht h1 h2)
          (fun t lt ht => matchOpen_head ht)
          hs hstab hj (by omega)

theorem findTag_drop_some {m : List Char → Option Nat}
    (hnil : m [] = none) {X : List Char} {i l k : Nat}
    (h : findTag m X = some (i, l)) (hk : k ≤ i) :
    findTag m (X.drop k) = some (i - k, l) := by
  obtain ⟨hm, hnone⟩ := findTag_spec h
  apply findTag_of_spec hnil
  · rw [List.drop_drop, show k + (i - k) = i by omega]
    exact hm
  · intro j hj
    rw [List.drop_drop]
    exact hnone (k + j) (by omega)

theorem findTag_drop_none {m : List Char → Option Nat}
    (hnil : m [] = none) {X : List Char}
    (h : findTag m X = none) (k : Nat) : findTag m (X.drop k) = none := by
  apply findTag_eq_none_of
  intro j
  rw [List.drop_drop]
  exact findTag_none hnil h (k + j)

theorem findTag_drop_rev_some {m : List Char → Option Nat}
    (hnil : m [] = none) {X : List Char} {i l k : Nat}
    (hbefore : ∀ j, j < k → m (X.drop j) = none)
    (h : findTag m (X.drop k) = some (i, l)) :
    findTag m X = some (k + i, l) := by
  obtain ⟨hm, hnone⟩ := findTag_spec h
  apply findTag_of_spec hnil
  · rw [List.drop_drop] at hm
    exact hm
  · intro j hj
    by_cases hjk : j < k
    · exact hbefore j hjk
    · have := hnone (j - k) (by omega)
      rw [List.drop_drop, show k + (j - k) = j by omega] at this
      exact this

theorem findTag_drop_rev_none {m : List Char → Option Nat}
    (hnil : m [] = none) {X : List Char} {k : Nat}
    (hbefore : ∀ j, j < k → m (X.drop j) = none)
    (h : findTag m (X.drop k) = none) : findTag m X = none := by
  apply findTag_eq_none_of
  intro j
  by_cases hjk : j < k
  · exact hbefore j hjk
  · have := findTag_none hnil h (j - k)
    rw [List.drop_drop, show k + (j - k) = j by omega] at this
    exact this

/-- Total content classified by running `processBufferWithKnownFormat`
and then flushing the remaining buffer at end of stream. -/
def PBfinC (ib : Bool) (B : List Char) : List Char :=
  (processBuffer ib B).content ++
    (if (processBuffer ib B).inThink then [] else (processBuffer ib B).buffer)

/-- Total reasoning classified by running `processBufferWithKnownFormat`
and then flushing the remaining buffer at end of stream. -/
def PBfinR (ib : Bool) (B : List Char) : List Char :=
  (processBuffer ib B).reasoning ++
    (if (processBuffer ib B).inThink then (processBuffer ib B).buffer else [])

theorem PBfin_content_notags {B : List Char} (ho : findOpen B = none)
    (hc : findClose B = none) :
    PBfinC false B = B ∧ PBfinR false B = [] := by
  unfold PBfinC PBfinR
  rw [processBuffer_eq]
  show _ ∧ _
  unfold pbStep
  rw [if_neg (by simp)]
  rw [ho, hc]
  dsimp only
  split
  · constructor
    · show B.take _ ++ B.drop _ = B
      exact List.take_append_drop _ _
    · rfl
  · exact ⟨rfl, rfl⟩

theorem PBfin_think_noclose {B : List Char} (hc : findClose B = none) :
    PBfinC true B = [] ∧ PBfinR true B = B := by
  unfold PBfinC PBfinR
  rw [processBuffer_eq]
  unfold pbStep
  rw [if_pos rfl]
  rw [hc]
  dsimp only
  split
  · constructor
    · rfl
    · show B.take _ ++ B.drop _ = B
      exact List.take_append_drop _ _
  · exact ⟨rfl, rfl⟩

theorem take_append_add (d W : List Char) (i : Nat) :
    (d ++ W).take (d.length + i) = d ++ W.take i := by
  rw [List.take_append_eq_append_take, List.take_of_length_le (by omega),
    show d.length + i - d.length = i by omega]

theorem drop_append_add (d W : List Char) (i : Nat) :
    (d ++ W).drop (d.length + i) = W.drop i := by
  rw [List.drop_append_eq_append_drop, List.drop_of_length_le (by omega),
    show d.length + i - d.length = i by omega, List.nil_append]

/-- Emit-shift, think mode: a close-free prefix `d` of the buffer can be
pre-classified as reasoning without changing the final totals. -/
theorem PBfin_shift_think (d W : List Char)
    (hno : ∀ j, j < d.length → matchClose ((d ++ W).drop j) = none)
    (hlen : d = [] ∨ 15 ≤ W.length) :
    PBfinC true (d ++ W) = PBfinC true W ∧
    PBfinR true (d ++ W) = d ++ PBfinR true W := by
  rcases hlen with rfl | hW
  · simp
  cases hcW : findClose W with
  | some p =>
    obtain ⟨i, l⟩ := p
    have hcD : findClose (d ++ W) = some (d.length + i, l) := by
      apply findTag_drop_rev_some matchClose_nil hno
      rwa [List.drop_left]
    obtain ⟨hl8, hil⟩ := findClose_bound hcW
    constructor
    · unfold PBfinC
      rw [processBuffer_eq (B := d ++ W), processBuffer_eq (B := W)]
      unfold pbStep
      rw [if_pos rfl, if_pos rfl, hcD, hcW]
      dsimp only
      rw [show d.length + i + l = d.length + (i + l) by omega,
        drop_append_add]
    · unfold PBfinR
      rw [processBuffer_eq (B := d ++ W), processBuffer_eq (B := W)]
      unfold pbStep
      rw [if_pos rfl, if_pos rfl, hcD, hcW]
      dsimp only
      rw [show d.length + i + l = d.length + (i + l) by omega,
        drop_append_add, take_append_add]
      simp only [List.append_assoc]
  | none =>
    have hcD : findClose (d ++ W) = none := by
      apply findTag_drop_rev_none matchClose_nil hno
      rwa [List.drop_left]
    obtain ⟨g1, g2⟩ := PBfin_think_noclose hcD
    obtain ⟨g3, g4⟩ := PBfin_think_noclose hcW
    rw [g1, g2, g3, g4]
    exact ⟨rfl, rfl⟩

/-- Emit-shift, content mode: a marker-free prefix `d` of a
well-sequenced buffer can be pre-classified as content without changing
the final totals. -/
theorem PBfin_shift_content (d W : List Char)
    (hnoO : ∀ j, j < d.length → matchOpen ((d ++ W).drop j) = none)
    (hnoC : ∀ j, j < d.length → matchClose ((d ++ W).drop j) = none)
    (hlen : d = [] ∨ 15 ≤ W.length)
    (hws : WellSeq false (d ++ W)) :
    PBfinC false (d ++ W) = d ++ PBfinC false W ∧
    PBfinR false (d ++ W) = PBfinR false W := by
  rcases hlen with rfl | hW
  · simp
  cases hoW : findOpen W with
  | some p =>
    obtain ⟨io, lo⟩ := p
    have hoD : findOpen (d ++ W) = some (d.length + io, lo) := by
      apply findTag_drop_rev_some matchOpen_nil hnoO
      rwa [List.drop_left]
    obtain ⟨hl7, hiol⟩ := findOpen_bound hoW
    cases hcW : findClose W with
    | some q =>
      obtain ⟨ic, lc⟩ := q
      have hcD : findClose (d ++ W) = some (d.length + ic, lc) := by
        apply findTag_drop_rev_some matchClose_nil hnoC
        rwa [List.drop_left]
      have hio : d.length + io < d.length + ic :=
        ((WellSeq_content_open_close hoD hcD).mp hws).1
      constructor
      · unfold PBfinC
        rw [processBuffer_eq (B := d ++ W), processBuffer_eq (B := W)]
        unfold pbStep
        simp only [if_neg Bool.false_ne_true]
        rw [hoD, hcD, hoW, hcW]
        dsimp only
        rw [if_pos hio, if_pos (by omega : io < ic)]
        dsimp only
        rw [show d.length + io + lo = d.length + (io + lo) by omega,
          drop_append_add, take_append_add]
        simp only [List.append_assoc]
      · unfold PBfinR
        rw [processBuffer_eq (B := d ++ W), processBuffer_eq (B := W)]
        unfold pbStep
        simp only [if_neg Bool.false_ne_true]
        rw [hoD, hcD, hoW, hcW]
        dsimp only
        rw [if_pos hio, if_pos (by omega : io < ic)]
        dsimp only
        rw [show d.length + io + lo = d.length + (io + lo) by omega,
          drop_append_add]
    | none =>
      have hcD : findClose (d ++ W) = none := by
        apply findTag_drop_rev_none matchClose_nil hnoC
        rwa [List.drop_left]
      constructor
      · unfold PBfinC
        rw [processBuffer_eq (B := d ++ W), processBuffer_eq (B := W)]
        unfold pbStep
        simp only [if_neg Bool.false_ne_true]
        rw [hoD, hcD, hoW, hcW]
        dsimp only
        rw [show d.length + io + lo = d.length + (io + lo) by omega,
          drop_append_add, take_append_add]
        simp only [List.append_assoc]
      · unfold PBfinR
        rw [processBuffer_eq (B := d ++ W), processBuffer_eq (B := W)]
        unfold pbStep
        simp only [if_neg Bool.false_ne_true]
        rw [hoD, hcD, hoW, hcW]
        dsimp only
        rw [show d.length + io + lo = d.length + (io + lo) by omega,
          drop_append_add]
  | none =>
    cases hcW : findClose W with
    | some q =>
      obtain ⟨ic, lc⟩ := q
      exfalso
      have hcD : findClose (d ++ W) = some (d.length + ic, lc) := by
        apply findTag_drop_rev_some matchClose_nil hnoC
        rwa [List.drop_left]
      have hoD : findOpen (d ++ W) = none := by
        apply findTag_drop_rev_none matchOpen_nil hnoO
        rwa [List.drop_left]
      exact WellSeq_content_close_noopen hoD hcD hws
    | none =>
      have hcD : findClose (d ++ W) = none := by
        apply findTag_drop_rev_none matchClose_nil hnoC
        rwa [List.drop_left]
      have hoD : findOpen (d ++ W) = none := by
        apply findTag_drop_rev_none matchOpen_nil hnoO
        rwa [List.drop_left]
      obtain ⟨g1, g2⟩ := PBfin_content_notags hoD hcD
      obtain ⟨g3, g4⟩ := PBfin_content_notags hoW hcW
      rw [g1, g2, g3, g4]
      exact ⟨rfl, rfl⟩

theorem ofNat_ne_lt : ∀ n, n < 91 → 65 ≤ n → Char.ofNat (n + 32) ≠ '<' := by
  decide

theorem toLower_eq_lt {c : Char} (h : Char.toLower c = '<') : c = '<' := by
  unfold Char.toLower at h
  dsimp only at h
  split at h
  · next hcond =>
    exact absurd h (ofNat_ne_lt c.toNat (by omega) hcond.1)
  · exact h

/-- A buffer without the literal character `<` contains no markers: every
marker match starts with a (case-insensitive) `<`. -/
theorem contains_lt_none {b : List Char} (h : b.contains '<' = false) :
    findOpen b = none ∧ findClose b = none := by
  have hmem : '<' ∉ b := by
    intro hmem
    rw [List.contains_eq_any_beq] at h
    simp [List.any_eq_true] at h
    exact h '<' hmem rfl
  constructor
  · apply findTag_eq_none_of
    intro j
    cases hm : matchOpen (b.drop j) with
    | none => rfl
    | some l =>
      exfalso
      apply hmem
      obtain ⟨h0, hc⟩ := matchOpen_head hm
      exact List.mem_of_mem_drop (toLower_eq_lt hc ▸ List.getElem_mem h0)
  · apply findTag_eq_none_of
    intro j
    cases hm : matchClose (b.drop j) with
    | none => rfl
    | some l =>
      exfalso
      apply hmem
      obtain ⟨h0, hc⟩ := matchClose_head hm
      exact List.mem_of_mem_drop (toLower_eq_lt hc ▸ List.getElem_mem h0)

/-- The pending buffer left behind by `processBufferWithKnownFormat`
contains no closing marker, and in content mode no opening marker either. -/
theorem pbF_residue : ∀ n (ib : Bool) (B : List Char), B.length ≤ n →
    findClose (pbF n ib B).buffer = none ∧
    ((pbF n ib B).inThink = false → findOpen (pbF n ib B).buffer = none) := by
  intro n
  induction n with
  | zero =>
    intro ib B h1
    have hB : B = [] := List.length_eq_zero.mp (Nat.le_zero.mp h1)
    subst hB
    exact ⟨rfl, fun _ => rfl⟩
  | succ g ih =>
    intro ib B h1
    show findClose (pbStep (pbF g) ib B).buffer = none ∧
      ((pbStep (pbF g) ib B).inThink = false →
        findOpen (pbStep (pbF g) ib B).buffer = none)
    unfold pbStep
    cases ib with
    | true =>
      simp only [if_true]
      cases hc : findClose B with
      | none =>
        dsimp only
        split
        · exact ⟨findTag_drop_none matchClose_nil hc _, fun h => nomatch h⟩
        · exact ⟨hc, fun h => nomatch h⟩
      | some p =>
        obtain ⟨i, l⟩ := p
        obtain ⟨hl8, hil⟩ := findClose_bound hc
        dsimp only
        exact ih false (B.drop (i + l)) (by rw [List.length_drop]; omega)
    | false =>
      simp only [if_false, Bool.false_eq_true]
      cases ho : findOpen B with
      | none =>
        cases hc : findClose B with
        | none =>
          dsimp only
          split
          · next hg =>
            obtain ⟨-, hlt⟩ := hg
            have := contains_lt_none (b := B.drop (B.length - 15))
              (Bool.eq_false_iff.mpr hlt)
            exact ⟨this.2, fun _ => this.1⟩
          · exact ⟨hc, fun _ => ho⟩
        | some p =>
          obtain ⟨i, l⟩ := p
          obtain ⟨hl8, hil⟩ := findClose_bound hc
          dsimp only
          exact ih false (B.drop (i + l)) (by rw [List.length_drop]; omega)
      | some p =>
        obtain ⟨io, lo⟩ := p
        obtain ⟨hl7, hiol⟩ := findOpen_bound ho
        cases hc : findClose B with
        | none =>
          dsimp only
          exact ih true (B.drop (io + lo)) (by rw [List.length_drop]; omega)
        | some q =>
          obtain ⟨ic, lc⟩ := q
          obtain ⟨hl8, hicl⟩ := findClose_bound hc
          dsimp only
          by_cases hio : io < ic
          · simp only [hio, if_true]
            exact ih true (B.drop (io + lo)) (by rw [List.length_drop]; omega)
          · simp only [hio, if_false]
            exact ih false (B.drop (ic + lc)) (by rw [List.length_drop]; omega)

theorem processBuffer_residue (ib : Bool) (B : List Char) :
    findClose (processBuffer ib B).buffer = none ∧
    ((processBuffer ib B).inThink = false →
      findOpen (processBuffer ib B).buffer = none) :=
  pbF_residue B.length ib B le_rfl

/-- A closing-marker miss deep inside `B` stays a miss after appending. -/
theorem matchClose_none_far {B R : List Char} {j : Nat}
    (h : matchClose (B.drop j) = none) (hj : j + 11 ≤ B.length) :
    matchClose ((B ++ R).drop j) = none := by
  rw [drop_append_of_le (by omega)]
  cases hm : matchClose (B.drop j ++ R) with
  | none => rfl
  | some l =>
    have hl : l ≤ 11 := by
      rcases matchClose_inv hm with ⟨rfl, -⟩ | ⟨rfl, -, -⟩ <;> omega
    rw [matchClose_of_append hm (by rw [List.length_drop]; omega)] at h
    cases h

/-- An opening-marker miss deep inside `B` stays a miss after appending. -/
theorem matchOpen_none_far {B R : List Char} {j : Nat}
    (h : matchOpen (B.drop j) = none) (hj : j + 10 ≤ B.length) :
    matchOpen ((B ++ R).drop j) = none := by
  rw [drop_append_of_le (by omega)]
  cases hm : matchOpen (B.drop j ++ R) with
  | none => rfl
  | some l =>
    have hl : l ≤ 10 := by
      rcases matchOpen_inv hm with ⟨rfl, -⟩ | ⟨rfl, -, -⟩ <;> omega
    rw [matchOpen_of_append hm (by rw [List.length_drop]; omega)] at h
    cases h

theorem take_append_le {B v : List Char} {i : Nat} (h : i ≤ B.length) :
    (B ++ v).take i = B.take i := by
  rw [List.take_append_eq_append_take, Nat.sub_eq_zero_of_le h, List.take_zero,
    List.append_nil]

theorem WellSeq_drop_think {X : List Char} {k : Nat}
    (hno : ∀ j, j < k → matchClose (X.drop j) = none) :
    WellSeq true (X.drop k) ↔ WellSeq true X := by
  cases hc : findClose X with
  | none =>
    exact iff_of_true (WellSeq_think_none (findTag_drop_none matchClose_nil hc k))
      (WellSeq_think_none hc)
  | some p =>
    obtain ⟨i, l⟩ := p
    have hki : k ≤ i := by
      by_contra hlt
      have hs := (findTag_spec hc).1
      rw [hno i (by omega)] at hs
      cases hs
    have hc' : findClose (X.drop k) = some (i - k, l) :=
      findTag_drop_some matchClose_nil hc hki
    rw [WellSeq_think_some hc', WellSeq_think_some hc, List.drop_drop,
      show k + (i - k + l) = i + l by omega]

theorem WellSeq_drop_content {X : List Char} {k : Nat}
    (hnoO : ∀ j, j < k → matchOpen (X.drop j) = none)
    (hnoC : ∀ j, j < k → matchClose (X.drop j) = none) :
    WellSeq false (X.drop k) ↔ WellSeq false X := by
  cases ho : findOpen X with
  | none =>
    have ho' : findOpen (X.drop k) = none := findTag_drop_none matchOpen_nil ho k
    cases hc : findClose X with
    | none =>
      exact iff_of_true
        (WellSeq_content_none ho' (findTag_drop_none matchClose_nil hc k))
        (WellSeq_content_none ho hc)
    | some p =>
      obtain ⟨ic, lc⟩ := p
      have hki : k ≤ ic := by
        by_contra hlt
        have hs := (findTag_spec hc).1
        rw [hnoC ic (by omega)] at hs
        cases hs
      have hc' : findClose (X.drop k) = some (ic - k, lc) :=
        findTag_drop_some matchClose_nil hc hki
      exact iff_of_false (WellSeq_content_close_noopen ho' hc')
        (WellSeq_content_close_noopen ho hc)
  | some p =>
    obtain ⟨io, lo⟩ := p
    have hki : k ≤ io := by
      by_contra hlt
      have hs := (findTag_spec ho).1
      rw [hnoO io (by omega)] at hs
      cases hs
    have ho' : findOpen (X.drop k) = some (io - k, lo) :=
      findTag_drop_some matchOpen_nil ho hki
    cases hc : findClose X with
    | none =>
      have hc' : findClose (X.drop k) = none :=
        findTag_drop_none matchClose_nil hc k
      rw [WellSeq_content_open_none ho' hc', WellSeq_content_open_none ho hc,
        List.drop_drop, show k + (io - k + lo) = io + lo by omega]
    | some q =>
      obtain ⟨ic, lc⟩ := q
      have hkic : k ≤ ic := by
        by_contra hlt
        have hs := (findTag_spec hc).1
        rw [hnoC ic (by omega)] at hs
        cases hs
      have hc' : findClose (X.drop k) = some (ic - k, lc) :=
        findTag_drop_some matchClose_nil hc hkic
      rw [WellSeq_content_open_close ho' hc', WellSeq_content_open_close ho hc,
        List.drop_drop, show k + (io - k + lo) = io + lo by omega]
      constructor
      · rintro ⟨h1, h2⟩
        exact ⟨by omega, h2⟩
      · rintro ⟨h1, h2⟩
        exact ⟨by omega, h2⟩

/-- One consumed closing marker in think mode, at the level of final
totals. -/
theorem PBfin_think_close_step {X : List Char} {i l : Nat}
    (hc : findClose X = some (i, l)) :
    PBfinC true X = PBfinC false (X.drop (i + l)) ∧
    PBfinR true X = X.take i ++ PBfinR false (X.drop (i + l)) := by
  constructor
  · unfold PBfinC
    rw [processBuffer_eq true X]
    unfold pbStep
    rw [if_pos rfl, hc]
  · unfold PBfinR
    rw [processBuffer_eq true X]
    unfold pbStep
    rw [if_pos rfl, hc]
    dsimp only
    rw [List.append_assoc]

/-- One consumed opening marker in content mode, at the level of final
totals. -/
theorem PBfin_content_open_step {X : List Char} {io lo : Nat}
    (ho : findOpen X = some (io, lo))
    (hcc : ∀ ic lc, findClose X = some (ic, lc) → io < ic) :
    PBfinC false X = X.take io ++ PBfinC true (X.drop (io + lo)) ∧
    PBfinR false X = PBfinR true (X.drop (io + lo)) := by
  cases hc : findClose X with
  | none =>
    constructor
    · unfold PBfinC
      rw [processBuffer_eq false X]
      unfold pbStep
      simp only [if_neg Bool.false_ne_true]
      rw [ho, hc]
      dsimp only
      rw [List.append_assoc]
    · unfold PBfinR
      rw [processBuffer_eq false X]
      unfold pbStep
      simp only [if_neg Bool.false_ne_true]
      rw [ho, hc]
  | some q =>
    obtain ⟨ic, lc⟩ := q
    have hio : io < ic := hcc ic lc hc
    constructor
    · unfold PBfinC
      rw [processBuffer_eq false X]
      unfold pbStep
      simp only [if_neg Bool.false_ne_true]
      rw [ho, hc]
      dsimp only
      rw [if_pos hio]
      dsimp only
      rw [List.append_assoc]
    · unfold PBfinR
      rw [processBuffer_eq false X]
      unfold pbStep
      simp only [if_neg Bool.false_ne_true]
      rw [ho, hc]
      dsimp only
      rw [if_pos hio]

/-- In a well-sequenced content buffer a closing marker cannot come
before every opening marker. -/
theorem content_close_excluded {B R : List Char} {ic lc : Nat}
    (hws : WellSeq false (B ++ R)) (ho : findOpen B = none)
    (hc : findClose B = some (ic, lc)) : False := by
  have hcBR : findClose (B ++ R) = some (ic, lc) := findClose_append hc
  obtain ⟨hl8, hicl⟩ := findClose_bound hc
  cases hoBR : findOpen (B ++ R) with
  | none => exact WellSeq_content_close_noopen hoBR hcBR hws
  | some p =>
    obtain ⟨jo, lo'⟩ := p
    have hjo : jo < ic := ((WellSeq_content_open_close hoBR hcBR).mp hws).1
    obtain ⟨hmo, -⟩ := findTag_spec hoBR
    by_cases hfit : jo + lo' ≤ B.length
    · rw [drop_append_of_le (by omega)] at hmo
      have hfo := matchOpen_of_append hmo (by rw [List.length_drop]; omega)
      rw [findTag_none matchOpen_nil ho jo] at hfo
      cases hfo
    · obtain ⟨hmc, -⟩ := findTag_spec hcBR
      exact tag_no_overlap
        (fun t lt kt h h1 h2 => matchOpen_interior h h1 h2)
        (fun t lt h => matchClose_head h)
        hmo hmc hjo (by omega)

/-- Incremental processing agrees with batch processing: running
`processBufferWithKnownFormat` on a prefix `B` and finishing later on the
residue plus the rest `R` yields the same final totals as processing
`B ++ R` in one go, provided the markers of `B ++ R` are well-sequenced;
well-sequencing is preserved for the residue. -/
theorem pb_incremental : ∀ n (ib : Bool) (B R : List Char), B.length ≤ n →
    WellSeq ib (B ++ R) →
    PBfinC ib (B ++ R) =
      (processBuffer ib B).content ++
        PBfinC (processBuffer ib B).inThink ((processBuffer ib B).buffer ++ R) ∧
    PBfinR ib (B ++ R) =
      (processBuffer ib B).reasoning ++
        PBfinR (processBuffer ib B).inThink ((processBuffer ib B).buffer ++ R) ∧
    WellSeq (processBuffer ib B).inThink ((processBuffer ib B).buffer ++ R) := by
  intro n
  induction n with
  | zero =>
    intro ib B R hn hws
    have hB : B = [] := List.length_eq_zero.mp (Nat.le_zero.mp hn)
    subst hB
    rw [show processBuffer ib [] = ⟨ib, [], [], []⟩ from rfl]
    dsimp only
    simp only [List.nil_append]
    exact ⟨trivial, trivial, hws⟩
  | succ g ih =>
    intro ib B R hn hws
    cases ib with
    | true =>
      cases hc : findClose B with
      | some p =>
        obtain ⟨i, l⟩ := p
        obtain ⟨hl8, hil⟩ := findClose_bound hc
        have hcBR : findClose (B ++ R) = some (i, l) := findClose_append hc
        have hdrop : (B ++ R).drop (i + l) = B.drop (i + l) ++ R :=
          drop_append_of_le (by omega)
        have htake : (B ++ R).take i = B.take i := take_append_le (by omega)
        have hstep := PBfin_think_close_step hcBR
        rw [hdrop, htake] at hstep
        have hws' : WellSeq false (B.drop (i + l) ++ R) := by
          rw [← hdrop]
          exact (WellSeq_think_some hcBR).mp hws
        obtain ⟨ih1, ih2, ih3⟩ := ih false (B.drop (i + l)) R
          (by rw [List.length_drop]; omega) hws'
        rw [processBuffer_eq true B]
        unfold pbStep
        rw [if_pos rfl, hc]
        dsimp only
        refine ⟨hstep.1.trans ih1, ?_, ih3⟩
        rw [hstep.2, ih2, List.append_assoc]
      | none =>
        have hnoC : ∀ j, j < B.length - 15 →
            matchClose ((B ++ R).drop j) = none := fun j hj =>
          matchClose_none_far (findTag_none matchClose_nil hc j) (by omega)
        by_cases hlen15 : 15 < B.length
        · have hBR : B.take (B.length - 15) ++ (B.drop (B.length - 15) ++ R) =
              B ++ R := by
            rw [← List.append_assoc, List.take_append_drop]
          have hlen_take : (B.take (B.length - 15)).length = B.length - 15 := by
            rw [List.length_take]; omega
          have hshift := PBfin_shift_think (B.take (B.length - 15))
            (B.drop (B.length - 15) ++ R)
            (by
              intro j hj
              rw [hBR]
              exact hnoC j (by omega))
            (Or.inr (by rw [List.length_append, List.length_drop]; omega))
          rw [hBR] at hshift
          have h3 : WellSeq true (B.drop (B.length - 15) ++ R) := by
            rw [← drop_append_of_le (by omega)]
            exact (WellSeq_drop_think hnoC).mpr hws
          rw [processBuffer_eq true B]
          unfold pbStep
          rw [if_pos rfl, hc]
          dsimp only
          rw [if_pos hlen15]
          dsimp only
          exact ⟨hshift.1.trans (List.nil_append _).symm, hshift.2, h3⟩
        · rw [processBuffer_eq true B]
          unfold pbStep
          rw [if_pos rfl, hc]
          dsimp only
          rw [if_neg hlen15]
          dsimp only
          exact ⟨(List.nil_append _).symm, (List.nil_append _).symm, hws⟩
    | false =>
      cases ho : findOpen B with
      | some p =>
        obtain ⟨io, lo⟩ := p
        obtain ⟨hl7, hiol⟩ := findOpen_bound ho
        have hoBR : findOpen (B ++ R) = some (io, lo) := findOpen_append ho
        have hcc : ∀ ic lc, findClose (B ++ R) = some (ic, lc) → io < ic :=
          fun ic lc hceq => ((WellSeq_content_open_close hoBR hceq).mp hws).1
        have hstep := PBfin_content_open_step hoBR hcc
        have hdrop : (B ++ R).drop (io + lo) = B.drop (io + lo) ++ R :=
          drop_append_of_le (by omega)
        have htake : (B ++ R).take io = B.take io := take_append_le (by omega)
        rw [hdrop, htake] at hstep
        have hws' : WellSeq true (B.drop (io + lo) ++ R) := by
          rw [← hdrop]
          cases hcbr : findClose (B ++ R) with
          | none => exact (WellSeq_content_open_none hoBR hcbr).mp hws
          | some q =>
            obtain ⟨ic, lc⟩ := q
            exact ((WellSeq_content_open_close hoBR hcbr).mp hws).2
        obtain ⟨ih1, ih2, ih3⟩ := ih true (B.drop (io + lo)) R
          (by rw [List.length_drop]; omega) hws'
        cases hc : findClose B with
        | some q =>
          obtain ⟨ic, lc⟩ := q
          have hioc : io < ic := hcc ic lc (findClose_append hc)
          rw [processBuffer_eq false B]
          unfold pbStep
          simp only [if_neg Bool.false_ne_true]
          rw [ho, hc]
          dsimp only
          rw [if_pos hioc]
          dsimp only
          refine ⟨?_, hstep.2.trans ih2, ih3⟩
          rw [hstep.1, ih1, List.append_assoc]
        | none =>
          rw [processBuffer_eq false B]
          unfold pbStep
          simp only [if_neg Bool.false_ne_true]
          rw [ho, hc]
          dsimp only
          refine ⟨?_, hstep.2.trans ih2, ih3⟩
          rw [hstep.1, ih1, List.append_assoc]
      | none =>
        cases hc : findClose B with
        | some q =>
          obtain ⟨ic, lc⟩ := q
          exact absurd (content_close_excluded hws ho hc) (fun h => h)
        | none =>
          have hnoO : ∀ j, j < B.length - 15 →
              matchOpen ((B ++ R).drop j) = none := fun j hj =>
            matchOpen_none_far (findTag_none matchOpen_nil ho j) (by omega)
          have hnoC : ∀ j, j < B.length - 15 →
              matchClose ((B ++ R).drop j) = none := fun j hj =>
            matchClose_none_far (findTag_none matchClose_nil hc j) (by omega)
          by_cases hguard : 15 < B.length ∧
              ¬((B.drop (B.length - 15)).contains '<' = true)
          · have hBR : B.take (B.length - 15) ++ (B.drop (B.length - 15) ++ R) =
                B ++ R := by
              rw [← List.append_assoc, List.take_append_drop]
            have hlen_take : (B.take (B.length - 15)).length = B.length - 15 := by
              rw [List.length_take]; omega
            have hshift := PBfin_shift_content (B.take (B.length - 15))
              (B.drop (B.length - 15) ++ R)
              (by
                intro j hj
                rw [hBR]
                exact hnoO j (by omega))
              (by
                intro j hj
                rw [hBR]
                exact hnoC j (by omega))
              (Or.inr (by rw [List.length_append, List.length_drop]; omega))
              (by rw [hBR]; exact hws)
            rw [hBR] at hshift
            have h3 : WellSeq false (B.drop (B.length - 15) ++ R) := by
              rw [← drop_append_of_le (by omega)]
              exact (WellSeq_drop_content hnoO hnoC).mpr hws
            rw [processBuffer_eq false B]
            unfold pbStep
            simp only [if_neg Bool.false_ne_true]
            rw [ho, hc]
            dsimp only
            rw [if_pos hguard]
            dsimp only
            exact ⟨hshift.1, hshift.2.trans (List.nil_append _).symm, h3⟩
          · rw [processBuffer_eq false B]
            unfold pbStep
            simp only [if_neg Bool.false_ne_true]
            rw [ho, hc]
            dsimp only
            rw [if_neg hguard]
            dsimp only
            exact ⟨(List.nil_append _).symm, (List.nil_append _).symm, hws⟩

theorem ctot_pre_chunk (pre : List Char) (evs : List CB) :
    ctot ((if pre ≠ [] then [CB.chunk pre] else []) ++ evs) = pre ++ ctot evs := by
  by_cases h : pre = [] <;> simp [h, ctot]

theorem rtot_pre_chunk (pre : List Char) (evs : List CB) :
    rtot ((if pre ≠ [] then [CB.chunk pre] else []) ++ evs) = rtot evs := by
  by_cases h : pre = [] <;> simp [h, rtot]

theorem ctot_pre_reasoning (pre : List Char) (evs : List CB) :
    ctot ((if pre ≠ [] then [CB.reasoning pre] else []) ++ evs) = ctot evs := by
  by_cases h : pre = [] <;> simp [h, ctot]

theorem rtot_pre_reasoning (pre : List Char) (evs : List CB) :
    rtot ((if pre ≠ [] then [CB.reasoning pre] else []) ++ evs) =
      pre ++ rtot evs := by
  by_cases h : pre = [] <;> simp [h, rtot]

/-- Final (content, reasoning) totals of the whole stream as classified
from the format-detection phase on the full text: an opening marker found
first wins, otherwise an implicit closing marker, otherwise everything is
content. -/
def batchTot (T : List Char) : List Char × List Char :=
  match findOpen T with
  | some (io, lo) =>
    (T.take io ++ PBfinC true (T.drop (io + lo)), PBfinR true (T.drop (io + lo)))
  | none =>
    match findClose T with
    | some (ic, lc) =>
      (PBfinC false (T.drop (ic + lc)), T.take ic ++ PBfinR false (T.drop (ic + lc)))
    | none => (T, [])

/-- Inputs on which format detection is insensitive to chunk boundaries:
the first marker is an opening marker occurring before any closing marker
(with the rest well-sequenced), or an implicit closing marker that
completes within the 3000-character detection threshold (with the rest
well-sequenced), or there are no markers at all. -/
def detOK (T : List Char) : Bool :=
  match findOpen T with
  | some (io, lo) =>
    (match findClose T with
     | some (ic, _) => decide (io < ic)
     | none => true) &&
    wellSeqF (T.drop (io + lo)).length true (T.drop (io + lo))
  | none =>
    match findClose T with
    | some (ic, lc) =>
      decide (ic + lc ≤ 3000) &&
      wellSeqF (T.drop (ic + lc)).length false (T.drop (ic + lc))
    | none => true

theorem batchTot_open {T : List Char} {io lo : Nat}
    (ho : findOpen T = some (io, lo)) :
    batchTot T = (T.take io ++ PBfinC true (T.drop (io + lo)),
      PBfinR true (T.drop (io + lo))) := by
  unfold batchTot
  rw [ho]

theorem batchTot_close {T : List Char} {ic lc : Nat}
    (ho : findOpen T = none) (hc : findClose T = some (ic, lc)) :
    batchTot T = (PBfinC false (T.drop (ic + lc)),
      T.take ic ++ PBfinR false (T.drop (ic + lc))) := by
  unfold batchTot
  rw [ho, hc]

theorem batchTot_none {T : List Char} (ho : findOpen T = none)
    (hc : findClose T = none) : batchTot T = (T, []) := by
  unfold batchTot
  rw [ho, hc]

theorem detOK_open {T : List Char} {io lo : Nat}
    (ho : findOpen T = some (io, lo)) (hok : detOK T = true) :
    WellSeq true (T.drop (io + lo)) ∧
    ∀ ic lc, findClose T = some (ic, lc) → io < ic := by
  unfold detOK at hok
  rw [ho] at hok
  rw [Bool.and_eq_true] at hok
  refine ⟨hok.2, ?_⟩
  intro ic lc hc
  have h1 := hok.1
  rw [hc] at h1
  exact of_decide_eq_true h1

theorem detOK_close {T : List Char} {ic lc : Nat}
    (ho : findOpen T = none) (hc : findClose T = some (ic, lc))
    (hok : detOK T = true) :
    ic + lc ≤ 3000 ∧ WellSeq false (T.drop (ic + lc)) := by
  unfold detOK at hok
  rw [ho, hc] at hok
  rw [Bool.and_eq_true] at hok
  exact ⟨of_decide_eq_true hok.1, hok.2⟩

theorem detOK_wellSeq_open {T : List Char} {io lo : Nat}
    (ho : findOpen T = some (io, lo)) (hok : detOK T = true) :
    WellSeq false T := by
  obtain ⟨hws, hcc⟩ := detOK_open ho hok
  cases hc : findClose T with
  | none => exact (WellSeq_content_open_none ho hc).mpr hws
  | some q =>
    obtain ⟨ic, lc⟩ := q
    exact (WellSeq_content_open_close ho hc).mpr ⟨hcc ic lc hc, hws⟩

/-- An opening-marker match strictly before a closing marker lying fully
inside `B` forces a full opening marker inside `B`. -/
theorem open_before_close_inside {B R : List Char} {jo lo' ic lc : Nat}
    (hmo : matchOpen ((B ++ R).drop jo) = some lo')
    (hmc : matchClose ((B ++ R).drop ic) = some lc)
    (hjo : jo < ic) (hicl : ic + lc ≤ B.length) (hl8 : 8 ≤ lc)
    (ho : findOpen B = none) : False := by
  by_cases hfit : jo + lo' ≤ B.length
  · rw [drop_append_of_le (by omega)] at hmo
    have hfo := matchOpen_of_append hmo (by rw [List.length_drop]; omega)
    rw [findTag_none matchOpen_nil ho jo] at hfo
    cases hfo
  · exact tag_no_overlap (fun t lt kt h h1 h2 => matchOpen_interior h h1 h2)
      (fun t lt h => matchClose_head h) hmo hmc hjo (by omega)

/-- Totals from an intermediate state: feed the remaining fragments, then
flush. -/
def runFrom (st : SplitterSt) (cs : List (List Char)) : List Char × List Char :=
  let p := feedAll st cs
  (ctot (p.2 ++ flushEvents p.1), rtot (p.2 ++ flushEvents p.1))

theorem runSplit_eq_runFrom (cs : List (List Char)) :
    runSplit cs = runFrom initSplitter cs := rfl

theorem runFrom_nil (st : SplitterSt) :
    runFrom st [] = (ctot (flushEvents st), rtot (flushEvents st)) := rfl

theorem runFrom_cons (st : SplitterSt) (s : List Char) (cs : List (List Char)) :
    runFrom st (s :: cs) =
      (ctot (feedContent st s).2 ++ (runFrom (feedContent st s).1 cs).1,
       rtot (feedContent st s).2 ++ (runFrom (feedContent st s).1 cs).2) := by
  have hfa : feedAll st (s :: cs) =
      ((feedAll (feedContent st s).1 cs).1,
       (feedContent st s).2 ++ (feedAll (feedContent st s).1 cs).2) := rfl
  show (ctot ((feedAll st (s :: cs)).2 ++ flushEvents (feedAll st (s :: cs)).1),
        rtot ((feedAll st (s :: cs)).2 ++ flushEvents (feedAll st (s :: cs)).1)) =
      (ctot (feedContent st s).2 ++
        ctot ((feedAll (feedContent st s).1 cs).2 ++
          flushEvents (feedAll (feedContent st s).1 cs).1),
       rtot (feedContent st s).2 ++
        rtot ((feedAll (feedContent st s).1 cs).2 ++
          flushEvents (feedAll (feedContent st s).1 cs).1))
  rw [hfa]
  dsimp only
  rw [List.append_assoc, ctot_append, rtot_append]

theorem feedContent_empty (st : SplitterSt) : feedContent st [] = (st, []) := by
  unfold feedContent
  rw [if_pos rfl]

/-- Flushing a detected-state buffer (which carries no full marker)
equals its batch totals. -/
theorem flush_detected (ib : Bool) (b : List Char)
    (hc : findClose b = none) (ho : ib = false → findOpen b = none) :
    ctot (flushEvents ⟨true, ib, b⟩) = PBfinC ib b ∧
    rtot (flushEvents ⟨true, ib, b⟩) = PBfinR ib b := by
  cases ib with
  | true =>
    obtain ⟨h1, h2⟩ := PBfin_think_noclose hc
    rw [h1, h2]
    by_cases hb : b = [] <;>
      simp [flushEvents, flushBody, hb, ctot, rtot, ctot_append, rtot_append]
  | false =>
    obtain ⟨h1, h2⟩ := PBfin_content_notags (ho rfl) hc
    rw [h1, h2]
    by_cases hb : b = [] <;>
      simp [flushEvents, flushBody, hb, ctot, rtot, ctot_append, rtot_append]

/-- Flushing an undetected marker-free buffer emits it all as content. -/
theorem flush_undetected (b : List Char) (ho : findOpen b = none)
    (hc : findClose b = none) :
    ctot (flushEvents ⟨false, false, b⟩) = b ∧
    rtot (flushEvents ⟨false, false, b⟩) = [] := by
  by_cases hb : b = [] <;>
    simp [flushEvents, flushBody, hb, ho, hc, ctot, rtot, ctot_append, rtot_append]

/-- From a detected state whose residual buffer carries no marker, the
remaining run produces exactly the batch totals of buffer plus remaining
input, provided the whole of it is well-sequenced. -/
theorem runFrom_detected : ∀ (cs : List (List Char)) (ib : Bool) (b : List Char),
    WellSeq ib (b ++ cs.flatten) →
    findClose b = none → (ib = false → findOpen b = none) →
    runFrom ⟨true, ib, b⟩ cs =
      (PBfinC ib (b ++ cs.flatten), PBfinR ib (b ++ cs.flatten)) := by
  intro cs
  induction cs with
  | nil =>
    intro ib b hws hc ho
    rw [runFrom_nil]
    obtain ⟨h1, h2⟩ := flush_detected ib b hc ho
    rw [h1, h2, show ([] : List (List Char)).flatten = [] from rfl,
      List.append_nil]
  | cons s rest ihr =>
    intro ib b hws hc ho
    rw [runFrom_cons]
    by_cases hs : s = []
    · subst hs
      rw [feedContent_empty]
      dsimp only
      rw [ihr ib b (by simpa using hws) hc ho]
      simp [ctot, rtot]
    · have hfc : feedContent ⟨true, ib, b⟩ s =
          (⟨true, (processBuffer ib (b ++ s)).inThink,
            (processBuffer ib (b ++ s)).buffer⟩,
           pbEvents (processBuffer ib (b ++ s))) := by
        unfold feedContent
        rw [if_neg hs]
        dsimp only
        rw [if_pos rfl]
      rw [hfc]
      dsimp only
      have hws2 : WellSeq ib ((b ++ s) ++ rest.flatten) := by
        rw [List.append_assoc]
        exact hws
      obtain ⟨l1, l2, l3⟩ := pb_incremental (b ++ s).length ib (b ++ s)
        rest.flatten le_rfl hws2
      have hres := processBuffer_residue ib (b ++ s)
      rw [ihr (processBuffer ib (b ++ s)).inThink (processBuffer ib (b ++ s)).buffer
        l3 hres.1 hres.2]
      rw [ctot_pbEvents, rtot_pbEvents,
        show (s :: rest).flatten = s ++ rest.flatten from rfl,
        ← List.append_assoc, l1, l2]

/-- From the format-detection phase with a marker-free accumulated buffer
below the threshold, the remaining run produces the batch totals of
buffer plus remaining input, provided detection is chunking-insensitive
on it. -/
theorem runFrom_undetected : ∀ (cs : List (List Char)) (b : List Char),
    findOpen b = none → findClose b = none → b.length < 3000 →
    detOK (b ++ cs.flatten) = true →
    runFrom ⟨false, false, b⟩ cs = batchTot (b ++ cs.flatten) := by
  intro cs
  induction cs with
  | nil =>
    intro b ho hc hlt hok
    rw [runFrom_nil]
    obtain ⟨h1, h2⟩ := flush_undetected b ho hc
    rw [h1, h2, show ([] : List (List Char)).flatten = [] from rfl,
      List.append_nil, batchTot_none ho hc]
  | cons s rest ihr =>
    intro b ho hc hlt hok
    have hok' : detOK ((b ++ s) ++ rest.flatten) = true := by
      rw [List.append_assoc]
      exact hok
    rw [runFrom_cons]
    by_cases hs : s = []
    · subst hs
      rw [feedContent_empty]
      dsimp only
      rw [ihr b ho hc hlt (by simpa using hok)]
      simp [ctot, rtot]
    · cases hoB : findOpen (b ++ s) with
      | some p =>
        obtain ⟨io, lo⟩ := p
        obtain ⟨hl7, hiol⟩ := findOpen_bound hoB
        have hoT : findOpen ((b ++ s) ++ rest.flatten) = some (io, lo) :=
          findOpen_append hoB
        obtain ⟨hwsT, hcc⟩ := detOK_open hoT hok'
        have hfc : feedContent ⟨false, false, b⟩ s =
            (⟨true, (processBuffer true ((b ++ s).drop (io + lo))).inThink,
               (processBuffer true ((b ++ s).drop (io + lo))).buffer⟩,
             (if (b ++ s).take io ≠ [] then [CB.chunk ((b ++ s).take io)]
              else []) ++
               pbEvents (processBuffer true ((b ++ s).drop (io + lo)))) := by
          unfold feedContent
          rw [if_neg hs]
          dsimp only
          rw [if_neg Bool.false_ne_true, hoB]
        rw [hfc]
        dsimp only
        have hdrop : ((b ++ s) ++ rest.flatten).drop (io + lo) =
            (b ++ s).drop (io + lo) ++ rest.flatten := drop_append_of_le (by omega)
        have hws2 : WellSeq true ((b ++ s).drop (io + lo) ++ rest.flatten) := by
          rw [← hdrop]
          exact hwsT
        obtain ⟨l1, l2, l3⟩ := pb_incremental ((b ++ s).drop (io + lo)).length
          true ((b ++ s).drop (io + lo)) rest.flatten le_rfl hws2
        have hres := processBuffer_residue true ((b ++ s).drop (io + lo))
        rw [runFrom_detected rest _ _ l3 hres.1 hres.2]
        dsimp only
        rw [ctot_pre_chunk, rtot_pre_chunk, ctot_pbEvents, rtot_pbEvents,
          List.append_assoc, ← l1, ← l2, ← hdrop,
          show (s :: rest).flatten = s ++ rest.flatten from rfl,
          ← List.append_assoc b s rest.flatten, batchTot_open hoT,
          take_append_le (by omega : io ≤ (b ++ s).length)]
      | none =>
        cases hcB : findClose (b ++ s) with
        | some q =>
          obtain ⟨ic, lc⟩ := q
          obtain ⟨hl8, hicl⟩ := findClose_bound hcB
          have hcT : findClose ((b ++ s) ++ rest.flatten) = some (ic, lc) :=
            findClose_append hcB
          have hoT : findOpen ((b ++ s) ++ rest.flatten) = none := by
            cases hoT' : findOpen ((b ++ s) ++ rest.flatten) with
            | none => rfl
            | some p =>
              obtain ⟨jo, lo'⟩ := p
              exact absurd (open_before_close_inside (findTag_spec hoT').1
                (findTag_spec hcT).1 ((detOK_open hoT' hok').2 ic lc hcT)
                hicl hl8 hoB) (fun h => h.elim)
          obtain ⟨hth3, hwsD⟩ := detOK_close hoT hcT hok'
          have hfc : feedContent ⟨false, false, b⟩ s =
              (⟨true, (processBuffer false ((b ++ s).drop (ic + lc))).inThink,
                 (processBuffer false ((b ++ s).drop (ic + lc))).buffer⟩,
               (if (b ++ s).take ic ≠ [] then
                  [CB.reasoning ((b ++ s).take ic)] else []) ++
                 pbEvents (processBuffer false ((b ++ s).drop (ic + lc)))) := by
            unfold feedContent
            rw [if_neg hs]
            dsimp only
            rw [if_neg Bool.false_ne_true, hoB, hcB]
          rw [hfc]
          dsimp only
          have hdrop : ((b ++ s) ++ rest.flatten).drop (ic + lc) =
              (b ++ s).drop (ic + lc) ++ rest.flatten :=
            drop_append_of_le (by omega)
          have hws2 : WellSeq false ((b ++ s).drop (ic + lc) ++ rest.flatten) := by
            rw [← hdrop]
            exact hwsD
          obtain ⟨l1, l2, l3⟩ := pb_incremental ((b ++ s).drop (ic + lc)).length
            false ((b ++ s).drop (ic + lc)) rest.flatten le_rfl hws2
          have hres := processBuffer_residue false ((b ++ s).drop (ic + lc))
          rw [runFrom_detected rest _ _ l3 hres.1 hres.2]
          dsimp only
          rw [ctot_pre_reasoning, rtot_pre_reasoning, ctot_pbEvents,
            rtot_pbEvents, List.append_assoc, ← l1, ← l2, ← hdrop,
            show (s :: rest).flatten = s ++ rest.flatten from rfl,
            ← List.append_assoc b s rest.flatten, batchTot_close hoT hcT,
            take_append_le (by omega : ic ≤ (b ++ s).length)]
        | none =>
          by_cases hth : 3000 ≤ (b ++ s).length
          · have hfc : feedContent ⟨false, false, b⟩ s =
                (⟨true, (processBuffer false (b ++ s)).inThink,
                   (processBuffer false (b ++ s)).buffer⟩,
                 pbEvents (processBuffer false (b ++ s))) := by
              unfold feedContent
              rw [if_neg hs]
              dsimp only
              rw [if_neg Bool.false_ne_true, hoB, hcB]
              dsimp only
              rw [if_pos hth]
            rw [hfc]
            dsimp only
            cases hoT : findOpen ((b ++ s) ++ rest.flatten) with
            | some p =>
              obtain ⟨io, lo⟩ := p
              have hwsT : WellSeq false ((b ++ s) ++ rest.flatten) :=
                detOK_wellSeq_open hoT hok'
              obtain ⟨l1, l2, l3⟩ := pb_incremental (b ++ s).length false
                (b ++ s) rest.flatten le_rfl hwsT
              have hres := processBuffer_residue false (b ++ s)
              rw [runFrom_detected rest _ _ l3 hres.1 hres.2]
              dsimp only
              obtain ⟨s1, s2⟩ :=
                PBfin_content_open_step hoT ((detOK_open hoT hok').2)
              rw [ctot_pbEvents, rtot_pbEvents, ← l1, ← l2,
                show (s :: rest).flatten = s ++ rest.flatten from rfl,
                ← List.append_assoc b s rest.flatten, batchTot_open hoT,
                s1, s2]
            | none =>
              cases hcT : findClose ((b ++ s) ++ rest.flatten) with
              | some q =>
                obtain ⟨ic, lc⟩ := q
                exfalso
                obtain ⟨hth2, -⟩ := detOK_close hoT hcT hok'
                obtain ⟨hl8, hicl⟩ := findClose_bound hcT
                have hmc := (findTag_spec hcT).1
                rw [drop_append_of_le (by omega)] at hmc
                have hfit := matchClose_of_append hmc
                  (by rw [List.length_drop]; omega)
                rw [findTag_none matchClose_nil hcB ic] at hfit
                cases hfit
              | none =>
                have hwsT : WellSeq false ((b ++ s) ++ rest.flatten) :=
                  WellSeq_content_none hoT hcT
                obtain ⟨l1, l2, l3⟩ := pb_incremental (b ++ s).length false
                  (b ++ s) rest.flatten le_rfl hwsT
                have hres := processBuffer_residue false (b ++ s)
                rw [runFrom_detected rest _ _ l3 hres.1 hres.2]
                dsimp only
                obtain ⟨s1, s2⟩ := PBfin_content_notags hoT hcT
                rw [ctot_pbEvents, rtot_pbEvents, ← l1, ← l2,
                  show (s :: rest).flatten = s ++ rest.flatten from rfl,
                  ← List.append_assoc b s rest.flatten, batchTot_none hoT hcT,
                  s1, s2]
          · have hfc : feedContent ⟨false, false, b⟩ s =
                (⟨false, false, b ++ s⟩, []) := by
              unfold feedContent
              rw [if_neg hs]
              dsimp only
              rw [if_neg Bool.false_ne_true, hoB, hcB]
              dsimp only
              rw [if_neg hth]
            rw [hfc]
            dsimp only
            rw [ihr (b ++ s) hoB hcB (by omega) hok',
              show (s :: rest).flatten = s ++ rest.flatten from rfl,
              ← List.append_assoc b s rest.flatten]
            simp [ctot, rtot]

/-- Master chunking-invariance theorem: on detection-stable inputs every
chunking produces the batch totals. -/
theorem runSplit_batchTot {T : List Char} (hok : detOK T = true)
    {cs : List (List Char)} (hcs : cs.flatten = T) :
    runSplit cs = batchTot T := by
  rw [runSplit_eq_runFrom,
    show initSplitter = (⟨false, false, []⟩ : SplitterSt) from rfl,
    runFrom_undetected cs [] rfl rfl (by decide)
      (by rw [List.nil_append, hcs]; exact hok),
    List.nil_append, hcs]

/-- C1: chunking invariance of the stream splitter.  The original claim
(every input, every chunking) is refuted by `C1_counterexample`; it holds
on the detection-stable inputs characterized by `detOK`: for such inputs
every chunking of the input — including chunk boundaries inside a
marker — produces exactly the totals of the single-chunk run. -/
theorem C1_amended {T : List Char} (hok : detOK T = true)
    {cs : List (List Char)} (hcs : cs.flatten = T) :
    runSplit cs = runSplit [T] := by
  rw [runSplit_batchTot hok hcs, runSplit_batchTot hok (by simp)]

theorem C1_amended_witness :
    detOK "a<think>b</think>c".toList = true ∧
    (["a<th".toList, "ink>b</th".toList, "ink>c".toList] :
      List (List Char)).flatten = "a<think>b</think>c".toList ∧
    runSplit ["a<th".toList, "ink>b</th".toList, "ink>c".toList] =
      runSplit ["a<think>b</think>c".toList] :=
  ⟨by decide, by decide, C1_amended (by decide) (by decide)⟩

/-- C2: implicit-think mode.  For an input whose first marker is a
closing marker completing within the 3000-character detection threshold,
with no opening marker anywhere and no further closing marker, every
chunking emits the text before the marker as reasoning and the text after
it as content.  (The original claim is refuted by `C2_counterexample`:
without the no-opening-marker condition the open-priority detection can
classify the pre-marker text as content, and without the threshold
condition detection can fire before the closing marker is seen.) -/
theorem C2_amended {T : List Char} {ic lc : Nat}
    (ho : findOpen T = none) (hc : findClose T = some (ic, lc))
    (hrest : findClose (T.drop (ic + lc)) = none)
    (hth : ic + lc ≤ 3000)
    {cs : List (List Char)} (hcs : cs.flatten = T) :
    runSplit cs = (T.drop (ic + lc), T.take ic) := by
  have hok : detOK T = true := by
    unfold detOK
    rw [ho, hc, Bool.and_eq_true]
    exact ⟨decide_eq_true hth,
      WellSeq_content_none (findTag_drop_none matchOpen_nil ho _) hrest⟩
  rw [runSplit_batchTot hok hcs, batchTot_close ho hc]
  obtain ⟨h1, h2⟩ :=
    PBfin_content_notags (findTag_drop_none matchOpen_nil ho (ic + lc)) hrest
  rw [h1, h2, List.append_nil]

theorem C2_amended_witness :
    "abc</think>xyz".toList.drop (3 + 8) = "xyz".toList ∧
    "abc</think>xyz".toList.take 3 = "abc".toList ∧
    runSplit ["ab".toList, "c</thi".toList, "nk>xy".toList, "z".toList] =
      ("abc</think>xyz".toList.drop (3 + 8), "abc</think>xyz".toList.take 3) :=
  ⟨by decide, by decide,
    C2_amended
      (show findOpen "abc</think>xyz".toList = none by decide)
      (show findClose "abc</think>xyz".toList = some (3, 8) by decide)
      (by decide) (by decide)
      (show (["ab".toList, "c</thi".toList, "nk>xy".toList, "z".toList] :
        List (List Char)).flatten = "abc</think>xyz".toList by decide)⟩

theorem replicate_a_not_contains_lt (n : Nat) :
    (List.replicate n 'a').contains '<' = false := by
  induction n with
  | zero => rfl
  | succ m ih =>
    rw [List.replicate_succ, List.contains_cons, ih]
    decide

theorem replicate_a_no_tags (n : Nat) :
    findOpen (List.replicate n 'a') = none ∧
    findClose (List.replicate n 'a') = none :=
  contains_lt_none (replicate_a_not_contains_lt n)

/-- Witness for C3 at a concrete input and chunking, plus a
beyond-threshold input (3200 characters, fed as two 1600-character
chunks) exercising the detection-threshold branch. -/
theorem C3_no_markers_all_content_witness :
    findOpen "no markers here".toList = none ∧
    findClose "no markers here".toList = none ∧
    ["no mark".toList, "ers here".toList].flatten = "no markers here".toList ∧
    runSplit ["no mark".toList, "ers here".toList] =
      ("no markers here".toList, []) ∧
    3000 < (List.replicate 3200 'a').length ∧
    runSplit [List.replicate 1600 'a', List.replicate 1600 'a'] =
      (List.replicate 3200 'a', []) :=
  ⟨by decide, by decide, by decide,
    C3_no_markers_all_content "no markers here".toList
      ["no mark".toList, "ers here".toList] (by decide) (by decide)
      (by decide),
    by rw [List.length_replicate]; omega,
    C3_no_markers_all_content (List.replicate 3200 'a')
      [List.replicate 1600 'a', List.replicate 1600 'a']
      (replicate_a_no_tags 3200).1 (replicate_a_no_tags 3200).2
      (by
        show List.replicate 1600 'a' ++ (List.replicate 1600 'a' ++ []) =
          List.replicate 3200 'a'
        rw [List.append_nil, ← List.replicate_add])⟩

end Claudia
